import Mathlib

set_option maxHeartbeats 2000000
set_option exponentiation.threshold 2000
set_option maxRecDepth 8192

/-!
# Jsonmate `jsonUtils` — a shallow embedding in Lean 4

This file embeds the JSON utility module of the Jsonmate repository
(`src/utils/jsonUtils.ts`): validation (`validateJson`), heuristic error
diagnosis (`detectJsonError` and its scanners), delimiter tracking
(`trackBrackets`), duplicate-key detection (`findDuplicateKeys`), and the
structural operations (`formatJson`, `minifyJson`, `sortJsonKeys`,
`compareJson`, `getJsonStats`).

The JavaScript built-ins the module relies on (`JSON.parse`,
`JSON.stringify`, `String.prototype.trim`, `String.prototype.split`,
regular expressions) are external to the repository; they are modelled
here by executable Lean functions that follow the ECMA-404 / ECMA-262
semantics the module depends on, with these documented deviations:

* JSON numbers whose value fits the finite IEEE-754 double range are
  kept as their source lexeme (a `String`) instead of a binary float;
  two numerals that denote the same finite double (`1e2` and `100`)
  therefore compare unequal in the model.  No theorem below depends on
  identifying such numerals.  Overflow, however, IS modelled: a numeral
  whose exact value reaches the double rounding threshold
  `2^1024 - 2^970` decodes to `Infinity` (`JsonValue.inf`), exactly as
  ECMAScript `JSON.parse` rounds it, and `JSON.stringify` serialises
  that non-finite number as `null`.
* JavaScript object semantics: duplicate keys collapse last-value-wins at
  the first occurrence's position (as in ECMAScript); the ECMAScript
  hoisting of integer-like keys in `Object.keys` enumeration order is not
  modelled (it affects only the order of emitted diff entries, which no
  theorem below depends on).
* Strings are sequences of Unicode scalar values (`Char`); lone UTF-16
  surrogates, which JavaScript strings admit, are not representable, so
  `\uXXXX` escapes naming surrogates are rejected by the modelled parser.
* `===` on two decoded JSON values compares primitives by value and is
  `false` on any pair of arrays/objects: inside `compareJson` the two
  sides always come from two distinct `JSON.parse` calls, so no object
  reference is ever shared between them.
-/

namespace Jsonmate

/-- JSON syntactic whitespace (the four characters ECMA-404 allows
between tokens, skipped by `JSON.parse`). -/
def isJsonWs (c : Char) : Bool :=
  c = ' ' || c = '\t' || c = '\n' || c = '\r'

/-- The ECMAScript `String.prototype.trim` whitespace set
(WhiteSpace ∪ LineTerminator). -/
def isJsTrimWs (c : Char) : Bool :=
  c = ' ' || c = '\t' || c = '\n' || c = '\r' ||
  c = '\x0b' || c = '\x0c' || c = ' ' || c = ' ' ||
  (0x2000 ≤ c.toNat && c.toNat ≤ 0x200a) ||
  c = ' ' || c = ' ' || c = ' ' || c = ' ' ||
  c = '　' || c = '﻿'

/-- The ECMAScript regular-expression `\s` class: the same set as the
`trim` whitespace set. -/
def isRegexWs (c : Char) : Bool := isJsTrimWs c

/-- The regex class `[0-9]`, enumerated (the form eases case analysis). -/
def isDigit (c : Char) : Bool :=
  c = '0' || c = '1' || c = '2' || c = '3' || c = '4' ||
  c = '5' || c = '6' || c = '7' || c = '8' || c = '9'

/-- ASCII lower-casing, the fragment of `String.prototype.toLowerCase`
the module's ASCII-only substring tests depend on. -/
def lowerAscii (c : Char) : Char :=
  if 'A' ≤ c && c ≤ 'Z' then Char.ofNat (c.toNat + 32) else c

/-- Model of `input.split('\n')`: split a character sequence on line feeds.  Like
the JavaScript original, the result is never empty and keeps empty
segments. -/
def splitLF : List Char → List (List Char)
  | [] => [[]]
  | c :: rest =>
    if c = '\n' then [] :: splitLF rest
    else
      match splitLF rest with
      | [] => [[c]]
      | h :: t => (c :: h) :: t

/-- Model of `String.prototype.trim` on a character sequence. -/
def jsTrim (cs : List Char) : List Char :=
  ((cs.dropWhile isJsTrimWs).reverse.dropWhile isJsTrimWs).reverse

/-- Substring containment (`String.prototype.includes`). -/
def containsSeq (pat : List Char) : List Char → Bool
  | [] => pat.isPrefixOf []
  | c :: rest => pat.isPrefixOf (c :: rest) || containsSeq pat rest

/-- A decoded JSON value (the result tree of `JSON.parse`).  Finite
numbers are kept as their source lexeme, see the header note; `inf` is
the JavaScript number `Infinity` (`-Infinity` when the flag is set),
produced when a numeral overflows the double range. -/
inductive JsonValue where
  | null : JsonValue
  | bool : Bool → JsonValue
  | num : String → JsonValue
  | inf : Bool → JsonValue
  | str : String → JsonValue
  | arr : List JsonValue → JsonValue
  | obj : List (String × JsonValue) → JsonValue

/-! ## Modelled `JSON.parse`

External to the repository.  A conformant ECMA-404 recursive-descent
parser over a character list.  Recursion is driven by a fuel counter so
that the definition is structural (kernel-reducible); the fuel supplied
by `jsonParse` is an over-approximation of the maximal call depth, which
grows by at most two per input character, so exhaustion is unreachable.
Parse errors follow the classic V8 message shapes
(`Unexpected token x in JSON at position N`,
`Unexpected end of JSON input`), which are the shapes
`detectJsonError`'s fallback was written against. -/

/-- A parse error: end of input, or an offending character together with
the number of characters remaining at it (from which the caller computes
the absolute position). -/
inductive JsParseErr where
  | unexpectedEnd : JsParseErr
  | unexpectedToken : Char → Nat → JsParseErr

def jsParseErrMessage (total : Nat) : JsParseErr → String
  | .unexpectedEnd => "Unexpected end of JSON input"
  | .unexpectedToken c remaining =>
      "Unexpected token " ++ String.singleton c ++ " in JSON at position " ++
        toString (total - remaining)

def skipWs (cs : List Char) : List Char := cs.dropWhile isJsonWs

def hexVal (c : Char) : Option Nat :=
  if '0' ≤ c && c ≤ '9' then some (c.toNat - 48)
  else if 'a' ≤ c && c ≤ 'f' then some (c.toNat - 87)
  else if 'A' ≤ c && c ≤ 'F' then some (c.toNat - 55)
  else none

/-- The single-character JSON string escapes. -/
def escChar (c : Char) : Option Char :=
  if c = '"' then some '"'
  else if c = '\\' then some '\\'
  else if c = '/' then some '/'
  else if c = 'b' then some '\x08'
  else if c = 'f' then some '\x0c'
  else if c = 'n' then some '\n'
  else if c = 'r' then some '\r'
  else if c = 't' then some '\t'
  else none

/-- Body of a JSON string literal, after the opening quote.  Returns the
decoded string and the characters following the closing quote.  Raw
control characters are rejected; `\uXXXX` escapes naming UTF-16
surrogates are rejected (see the header note). -/
def parseStrBody : List Char → List Char → Except JsParseErr (String × List Char)
  | _, [] => .error .unexpectedEnd
  | acc, c :: rest =>
    if c = '"' then .ok (⟨acc.reverse⟩, rest)
    else if c = '\\' then
      match rest with
      | [] => .error .unexpectedEnd
      | e :: rest2 =>
        if e = 'u' then
          match rest2 with
          | h1 :: h2 :: h3 :: h4 :: rest3 =>
            match hexVal h1, hexVal h2, hexVal h3, hexVal h4 with
            | some a, some b, some c2, some d =>
              let n := ((a * 16 + b) * 16 + c2) * 16 + d
              if n < 0xd800 || 0xdfff < n then
                parseStrBody (Char.ofNat n :: acc) rest3
              else .error (.unexpectedToken 'u' rest.length)
            | _, _, _, _ => .error (.unexpectedToken 'u' rest.length)
          | _ => .error (.unexpectedToken 'u' rest.length)
        else
          match escChar e with
          | some c2 => parseStrBody (c2 :: acc) rest2
          | none => .error (.unexpectedToken e (rest2.length + 1))
    else if c.toNat < 0x20 then .error (.unexpectedToken c (rest.length + 1))
    else parseStrBody (c :: acc) rest

def isNumChar (c : Char) : Bool :=
  isDigit c || c = '+' || c = '-' || c = '.' || c = 'e' || c = 'E'

/-- Exponent part of the JSON number grammar (possibly empty). -/
def numExpPart : List Char → Bool
  | [] => true
  | c :: r =>
    (c = 'e' || c = 'E') &&
    (let r2 := match r with
               | '+' :: r3 => r3
               | '-' :: r3 => r3
               | _ => r
     !r2.isEmpty && r2.all isDigit)

/-- Fraction-then-exponent part of the JSON number grammar. -/
def numFracExp : List Char → Bool
  | '.' :: r =>
    (match r with
     | c :: _ => isDigit c
     | [] => false) &&
    numExpPart (r.dropWhile isDigit)
  | r => numExpPart r

/-- The full ECMA-404 number grammar: `-?(0|[1-9][0-9]*)(\.[0-9]+)?([eE][+-]?[0-9]+)?`. -/
def isNumLit (cs : List Char) : Bool :=
  match cs with
  | [] => false
  | c :: r =>
    let cs1 := if c = '-' then r else c :: r
    match cs1 with
    | [] => false
    | c2 :: r2 =>
      if c2 = '0' then numFracExp r2
      else isDigit c2 && numFracExp (r2.dropWhile isDigit)

/-- The three mutually recursive productions (value, array elements,
object members) folded into one request type so that the parser is a
single function structurally recursive on its fuel. -/
inductive ParseReq where
  | val : List Char → ParseReq
  | elems : List JsonValue → Bool → List Char → ParseReq
  | members : List (String × JsonValue) → Bool → List Char → ParseReq

/-- ECMAScript object construction: assigning to an existing key replaces
its value in place (the key keeps its original position); a new key is
appended. -/
def insertKV (acc : List (String × JsonValue)) (k : String) (v : JsonValue) :
    List (String × JsonValue) :=
  match acc with
  | [] => [(k, v)]
  | (k0, v0) :: rest =>
    if k0 = k then (k0, v) :: rest else (k0, v0) :: insertKV rest k v

/-- Matcher for a three-character literal tail (`ull` of `null`, `rue`
of `true`). -/
def lit3 (a b c : Char) : List Char → Option (List Char)
  | c1 :: c2 :: c3 :: r => if c1 = a && c2 = b && c3 = c then some r else none
  | _ => none

/-- Matcher for a four-character literal tail (`alse` of `false`). -/
def lit4 (a b c d : Char) : List Char → Option (List Char)
  | c1 :: c2 :: c3 :: c4 :: r =>
    if c1 = a && c2 = b && c3 = c && c4 = d then some r else none
  | _ => none

def parseGo : Nat → ParseReq → Except JsParseErr (JsonValue × List Char)
  | 0, _ => .error .unexpectedEnd
  | fuel + 1, .val cs =>
    match cs with
    | [] => .error .unexpectedEnd
    | c :: rest =>
      if c = 'n' then
        match lit3 'u' 'l' 'l' rest with
        | some r => .ok (.null, r)
        | none => .error (.unexpectedToken c (rest.length + 1))
      else if c = 't' then
        match lit3 'r' 'u' 'e' rest with
        | some r => .ok (.bool true, r)
        | none => .error (.unexpectedToken c (rest.length + 1))
      else if c = 'f' then
        match lit4 'a' 'l' 's' 'e' rest with
        | some r => .ok (.bool false, r)
        | none => .error (.unexpectedToken c (rest.length + 1))
      else if c = '"' then
        match parseStrBody [] rest with
        | .error e => .error e
        | .ok (s, rest2) => .ok (.str s, rest2)
      else if c = '[' then parseGo fuel (.elems [] true (skipWs rest))
      else if c = '{' then parseGo fuel (.members [] true (skipWs rest))
      else if isDigit c || c = '-' then
        let lexeme := (c :: rest).takeWhile isNumChar
        if isNumLit lexeme then .ok (.num ⟨lexeme⟩, (c :: rest).dropWhile isNumChar)
        else .error (.unexpectedToken c (rest.length + 1))
      else .error (.unexpectedToken c (rest.length + 1))
  | fuel + 1, .elems acc atStart cs =>
    match cs with
    | [] => .error .unexpectedEnd
    | c :: r =>
      if c = ']' then
        if atStart then .ok (.arr acc.reverse, r)
        else .error (.unexpectedToken ']' (r.length + 1))
      else
        match parseGo fuel (.val (c :: r)) with
        | .error e => .error e
        | .ok (v, rest) =>
          match skipWs rest with
          | [] => .error .unexpectedEnd
          | c1 :: r1 =>
            if c1 = ']' then .ok (.arr (v :: acc).reverse, r1)
            else if c1 = ',' then parseGo fuel (.elems (v :: acc) false (skipWs r1))
            else .error (.unexpectedToken c1 (r1.length + 1))
  | fuel + 1, .members acc atStart cs =>
    match cs with
    | [] => .error .unexpectedEnd
    | c :: r =>
      if c = '}' then
        if atStart then .ok (.obj acc, r)
        else .error (.unexpectedToken '}' (r.length + 1))
      else if c = '"' then
        match parseStrBody [] r with
        | .error e => .error e
        | .ok (k, rest) =>
          match skipWs rest with
          | [] => .error .unexpectedEnd
          | c1 :: r2 =>
            if c1 = ':' then
              match parseGo fuel (.val (skipWs r2)) with
              | .error e => .error e
              | .ok (v, rest2) =>
                match skipWs rest2 with
                | [] => .error .unexpectedEnd
                | c2 :: r3 =>
                  if c2 = '}' then .ok (.obj (insertKV acc k v), r3)
                  else if c2 = ',' then
                    parseGo fuel (.members (insertKV acc k v) false (skipWs r3))
                  else .error (.unexpectedToken c2 (r3.length + 1))
            else .error (.unexpectedToken c1 (r2.length + 1))
      else .error (.unexpectedToken c (r.length + 1))

/-! ## Double overflow of number literals

ECMAScript `JSON.parse` converts each numeral to an IEEE-754 double with
round-to-nearest; a numeral whose exact magnitude is at least
`2^1024 - 2^970` (the midpoint above the largest finite double — whose
tie rounds to the even `2^1024`) becomes `Infinity`.  The threshold
comparison below is exact rational arithmetic on the lexeme's integral
mantissa and decimal exponent. -/

/-- Decimal digits to a natural number. -/
def decDigitsVal (ds : List Char) : Nat :=
  ds.foldl (fun acc c => 10 * acc + (c.toNat - 48)) 0

/-- The smallest magnitude that round-to-nearest sends to `Infinity`. -/
def dblOverflowBound : Nat := 2 ^ 1024 - 2 ^ 970

/-- Integral mantissa and decimal exponent of a sign-stripped number
lexeme: the denoted value is `mantissa * 10 ^ exponent`. -/
def numMantExp (cs : List Char) : Nat × Int :=
  let ip := cs.takeWhile isDigit
  let r1 := cs.dropWhile isDigit
  let fp := match r1 with
    | '.' :: r => r.takeWhile isDigit
    | _ => []
  let r2 := match r1 with
    | '.' :: r => r.dropWhile isDigit
    | _ => r1
  let ev : Int := match r2 with
    | 'e' :: '+' :: d => (decDigitsVal d : Int)
    | 'e' :: '-' :: d => -(decDigitsVal d : Int)
    | 'e' :: d => (decDigitsVal d : Int)
    | 'E' :: '+' :: d => (decDigitsVal d : Int)
    | 'E' :: '-' :: d => -(decDigitsVal d : Int)
    | 'E' :: d => (decDigitsVal d : Int)
    | _ => 0
  (decDigitsVal ip * 10 ^ fp.length + decDigitsVal fp, ev - fp.length)

/-- Sign of a number lexeme. -/
def lexNeg : List Char → Bool
  | '-' :: _ => true
  | _ => false

/-- Whether a number lexeme's exact magnitude reaches the double
overflow threshold, in which case ECMAScript rounds it to `Infinity`. -/
def numOverflows (cs : List Char) : Bool :=
  let body := match cs with
    | '-' :: r => r
    | _ => cs
  let me := numMantExp body
  if 0 ≤ me.2 then decide (dblOverflowBound ≤ me.1 * 10 ^ me.2.toNat)
  else decide (dblOverflowBound * 10 ^ (-me.2).toNat ≤ me.1)

/-- One numeral's ECMAScript decoding relative to the lexeme model:
an overflowing numeral becomes `Infinity` with the lexeme's sign. -/
def coerceNum (lex : String) : JsonValue :=
  if numOverflows lex.data then .inf (lexNeg lex.data) else .num lex

mutual

/-- Double-overflow pass over a raw parse tree.  ECMAScript `JSON.parse`
converts each numeral to a double where it is read; on the finished tree
that is exactly this leaf substitution. -/
def coerceNums : JsonValue → JsonValue
  | .null => .null
  | .bool b => .bool b
  | .num lex => coerceNum lex
  | .inf s => .inf s
  | .str str => .str str
  | .arr l => .arr (coerceArr l)
  | .obj kvs => .obj (coerceObj kvs)

def coerceArr : List JsonValue → List JsonValue
  | [] => []
  | v :: rest => coerceNums v :: coerceArr rest

def coerceObj : List (String × JsonValue) → List (String × JsonValue)
  | [] => []
  | (k, v) :: rest => (k, coerceNums v) :: coerceObj rest


end

mutual

/-- Whether a decoded value contains an `Infinity` leaf. -/
def hasInf : JsonValue → Bool
  | .inf _ => true
  | .arr l => hasInfArr l
  | .obj kvs => hasInfObj kvs
  | _ => false

def hasInfArr : List JsonValue → Bool
  | [] => false
  | v :: rest => hasInf v || hasInfArr rest

def hasInfObj : List (String × JsonValue) → Bool
  | [] => false
  | (_, v) :: rest => hasInf v || hasInfObj rest


end

/-- Model of `JSON.parse` with the structured error. -/
def jsonParseE (input : String) : Except JsParseErr JsonValue :=
  let cs := input.toList
  match parseGo (2 * cs.length + 4) (.val (skipWs cs)) with
  | .error e => .error e
  | .ok (v, rest) =>
    match skipWs rest with
    | [] => .ok (coerceNums v)
    | c :: r => .error (.unexpectedToken c (r.length + 1))

/-- Model of `JSON.parse`: the decoded value, or the thrown `SyntaxError`'s message. -/
def jsonParse (input : String) : Except String JsonValue :=
  match jsonParseE input with
  | .ok v => .ok v
  | .error e => .error (jsParseErrMessage input.toList.length e)

/-! ## `detectJsonError` and its scanners (from `src/utils/jsonUtils.ts`) -/

/-- The `{line?, column?, suggestion?}` part of a diagnosis. -/
structure DetectInfo where
  line : Option Nat
  column : Option Nat
  suggestion : Option String
deriving DecidableEq, Repr

/-- Model of `countUnescapedQuotes`'s loop: the `escaped` flag is consumed by the
character following a backslash. -/
def cuqGo : Bool → List Char → Nat
  | _, [] => 0
  | true, _ :: rest => cuqGo false rest
  | false, '\\' :: rest => cuqGo true rest
  | false, '"' :: rest => 1 + cuqGo false rest
  | false, _ :: rest => cuqGo false rest

/-- Model of `countUnescapedQuotes(line)`. -/
def countUnescapedQuotes (cs : List Char) : Nat := cuqGo false cs

/-- Check 1's line scan: first line (0-based) with an odd count of
unescaped quotes, with the raw line. -/
def oddQuoteScan : Nat → List (List Char) → Option (Nat × List Char)
  | _, [] => none
  | i, l :: rest =>
    if countUnescapedQuotes l % 2 ≠ 0 then some (i, l)
    else oddQuoteScan (i + 1) rest

/-- Check 1 (unterminated string): gated on the lowercased native message. -/
def unterminatedCheck (lines : List (List Char)) (msgLower : List Char) : Option DetectInfo :=
  if containsSeq (String.toList ("unterminated")) msgLower ||
     containsSeq (String.toList ("unexpected end of json")) msgLower then
    match oddQuoteScan 0 lines with
    | some (i, l) =>
      some ⟨some (i + 1), some l.length, some ("Add closing quote (\") at the end of the string")⟩
    | none => none
  else none

def endsWithChar (c : Char) (cs : List Char) : Bool :=
  match cs.getLast? with
  | some c0 => c0 = c
  | none => false

def startsWithChar (c : Char) (cs : List Char) : Bool :=
  match cs with
  | c0 :: _ => c0 = c
  | [] => false

/-- Check 2's per-pair condition, on the trimmed current and next lines:
not empty, not comment-like, not already ending in `,`/`{`/`[`, ending in
a value terminator, next line starting with a quote. -/
def missingCommaCond (cur nxt : List Char) : Bool :=
  !cur.isEmpty &&
  !(String.toList ("//")).isPrefixOf cur &&
  !endsWithChar ',' cur && !endsWithChar '{' cur && !endsWithChar '[' cur &&
  (endsWithChar '"' cur || endsWithChar '}' cur || endsWithChar ']' cur ||
   (match cur.getLast? with
    | some c => isDigit c || c = '.'
    | none => false) ||
   (String.toList ("true")).isSuffixOf cur ||
   (String.toList ("false")).isSuffixOf cur ||
   (String.toList ("null")).isSuffixOf cur) &&
  startsWithChar '"' nxt

/-- Check 2 (missing comma): first adjacent pair satisfying the
condition; returns the 0-based index and the raw (untrimmed) current
line, whose length becomes the reported column. -/
def missingCommaScan : Nat → List (List Char) → Option (Nat × List Char)
  | _, [] => none
  | _, [_] => none
  | i, a :: b :: rest =>
    if missingCommaCond (jsTrim a) (jsTrim b) then some (i, a)
    else missingCommaScan (i + 1) (b :: rest)

/-- The regex `/^"[^"]+"\s*$/`: a lone quoted property name. -/
def bareQuotedProp (cs : List Char) : Bool :=
  match cs with
  | '"' :: rest =>
    let mid := rest.takeWhile (fun c => c ≠ '"')
    !mid.isEmpty &&
    (match rest.dropWhile (fun c => c ≠ '"') with
     | '"' :: tail => tail.all isRegexWs
     | _ => false)
  | _ => false

/-- Check 3 (missing colon): a bare property-name line, not followed by a
colon, itself containing no colon.  Fires only when a next line exists. -/
def missingColonScan : Nat → List (List Char) → Option Nat
  | _, [] => none
  | i, l :: rest =>
    let cur := jsTrim l
    match rest with
    | [] => none
    | nl :: _ =>
      if bareQuotedProp cur && !startsWithChar ':' (jsTrim nl) && !cur.contains ':' then
        some i
      else missingColonScan (i + 1) rest

/-- Check 5 (trailing comma): trimmed current ends with a comma and the
trimmed next line is exactly a closing brace or bracket.  The returned
flag says which. -/
def trailingCommaScan : Nat → List (List Char) → Option (Nat × Bool)
  | _, [] => none
  | _, [_] => none
  | i, a :: b :: rest =>
    let nxt := jsTrim b
    if endsWithChar ',' (jsTrim a) && (nxt = ['}'] || nxt = [']']) then
      some (i, nxt = ['}'])
    else trailingCommaScan (i + 1) (b :: rest)

/-! ### `trackBrackets` -/

/-- An open delimiter on the tracker's stack, with its 1-based position. -/
structure BEntry where
  char : Char
  line : Nat
  column : Nat
deriving DecidableEq, Repr

/-- The tracker's scanning state. -/
structure BState where
  stack : List BEntry
  inString : Bool
  escaped : Bool
deriving DecidableEq, Repr

/-- An error produced by the tracker. -/
structure BErrInfo where
  line : Nat
  column : Nat
  suggestion : String
deriving DecidableEq, Repr

/-- One character of `trackBrackets`'s scan (the body of its inner loop). -/
def brStep (lineNo colNo : Nat) (c : Char) (s : BState) : Except BErrInfo BState :=
  if s.escaped then .ok { s with escaped := false }
  else if c = '\\' then .ok { s with escaped := true }
  else if c = '"' then .ok { s with inString := !s.inString }
  else if s.inString then .ok s
  else if c = '{' || c = '[' then
    .ok { s with stack := ⟨c, lineNo, colNo⟩ :: s.stack }
  else if c = '}' || c = ']' then
    match s.stack with
    | [] =>
      .error ⟨lineNo, colNo,
        "Unexpected closing " ++ (if c = '}' then ("brace") else ("bracket")) ++
          " - no matching opening"⟩
    | last :: rest =>
      let expectedClose := if last.char = '{' then '}' else ']'
      if c ≠ expectedClose then
        .error ⟨lineNo, colNo,
          "Mismatched bracket - expected '" ++ String.singleton expectedClose ++
            "' but found '" ++ String.singleton c ++ "'. Opening " ++
            String.singleton last.char ++ " was at line " ++ toString last.line⟩
      else .ok { s with stack := rest }
  else .ok s

/-- Model of `trackBrackets`'s inner loop over one line, columns 1-based. -/
def brLine (lineNo : Nat) : Nat → BState → List Char → Except BErrInfo BState
  | _, s, [] => .ok s
  | colNo, s, c :: rest =>
    match brStep lineNo colNo c s with
    | .error e => .error e
    | .ok s1 => brLine lineNo (colNo + 1) s1 rest

/-- Model of `trackBrackets`'s outer loop over the lines, lines 1-based. -/
def brRun : Nat → BState → List (List Char) → Except BErrInfo BState
  | _, s, [] => .ok s
  | lineNo, s, l :: rest =>
    match brLine lineNo 1 s l with
    | .error e => .error e
    | .ok s1 => brRun (lineNo + 1) s1 rest

/-- The suggestion reported for an unclosed delimiter `c`. -/
def unclosedSuggestion (c : Char) : String :=
  "Unclosed " ++ (if c = '{' then ("brace") else ("bracket")) ++ " - add closing " ++
    (if c = '{' then ("\x7d") else ("]"))

/-- Model of `trackBrackets(input)`: `none` models the `{}` (no error) result. -/
def trackBrackets (input : List Char) : Option BErrInfo :=
  match brRun 1 ⟨[], false, false⟩ (splitLF input) with
  | .error e => some e
  | .ok s =>
    match s.stack with
    | [] => none
    | top :: _ => some ⟨top.line, top.column, unclosedSuggestion top.char⟩

/-! ### Check 6: `findDuplicateKeys` -/

/-- Attempt of the regex `/"([^"]+)"\s*:/` starting just after an opening
quote: a non-empty run of non-quote characters, the closing quote,
optional whitespace, then a colon. -/
def tryKeyAt (rest : List Char) : Option (List Char) :=
  let mid := rest.takeWhile (fun c => c ≠ '"')
  if mid.isEmpty then none
  else
    match rest.dropWhile (fun c => c ≠ '"') with
    | '"' :: after =>
      (match after.dropWhile isRegexWs with
       | ':' :: _ => some mid
       | _ => none)
    | _ => none

/-- Leftmost match of `/"([^"]+)"\s*:/` in a line: the captured key. -/
def extractKey : List Char → Option (List Char)
  | [] => none
  | '"' :: rest =>
    match tryKeyAt rest with
    | some k => some k
    | none => extractKey rest
  | _ :: rest => extractKey rest

def lookupLine : List (List Char × Nat) → List Char → Option Nat
  | [], _ => none
  | (k, n) :: rest, key => if k = key then some n else lookupLine rest key

/-- Model of `findDuplicateKeys`'s loop: the first-seen map, 0-based index, lines.
Returns the repeat's 0-based index, the key, and the first-seen 1-based
line. -/
def fdkGo : List (List Char × Nat) → Nat → List (List Char) → Option (Nat × List Char × Nat)
  | _, _, [] => none
  | seen, i, l :: rest =>
    match extractKey l with
    | some k =>
      match lookupLine seen k with
      | some first => some (i, k, first)
      | none => fdkGo ((k, i + 1) :: seen) (i + 1) rest
    | none => fdkGo seen (i + 1) rest

def findDuplicateKeys (lines : List (List Char)) : Option (Nat × List Char × Nat) :=
  fdkGo [] 0 lines

/-! ### Fallback: mining the native message -/

def digitsToNat (ds : List Char) : Nat :=
  ds.foldl (fun n c => n * 10 + (c.toNat - 48)) 0

/-- Attempt of the regex `/line (\d+) column (\d+)/` at one position. -/
def firefoxMatchAt (cs : List Char) : Option (Nat × Nat) :=
  if (String.toList ("line ")).isPrefixOf cs then
    let rest := cs.drop 5
    let d1 := rest.takeWhile isDigit
    if d1.isEmpty then none
    else
      let rest2 := rest.dropWhile isDigit
      if (String.toList (" column ")).isPrefixOf rest2 then
        let d2 := (rest2.drop 8).takeWhile isDigit
        if d2.isEmpty then none else some (digitsToNat d1, digitsToNat d2)
      else none
  else none

/-- Leftmost match of `/line (\d+) column (\d+)/`. -/
def firefoxMatch : List Char → Option (Nat × Nat)
  | [] => none
  | c :: rest =>
    match firefoxMatchAt (c :: rest) with
    | some r => some r
    | none => firefoxMatch rest

/-- Attempt of the regex `/position (\d+)/` at one position. -/
def positionMatchAt (cs : List Char) : Option Nat :=
  if (String.toList ("position ")).isPrefixOf cs then
    let d := (cs.drop 9).takeWhile isDigit
    if d.isEmpty then none else some (digitsToNat d)
  else none

/-- Leftmost match of `/position (\d+)/`. -/
def positionMatch : List Char → Option Nat
  | [] => none
  | c :: rest =>
    match positionMatchAt (c :: rest) with
    | some r => some r
    | none => positionMatch rest

/-- The line/column the `position N` fallback derives: 1-based line by
counting line feeds before the offset; column is the length of the text
after the last line feed before the offset (`|| 0` in the source yields
the same value, since a missing entry can only arise as an empty
segment). -/
def positionFallback (input : List Char) (n : Nat) : DetectInfo :=
  let segs := splitLF (input.take n)
  ⟨some segs.length, some ((segs.getLast?.getD []).length),
    some ("Check syntax at this location")⟩

/-- Model of `detectJsonError(input, error)`: the fixed-priority diagnosis
pipeline.  `msg` is the native error's message. -/
def detectJsonError (input msg : String) : DetectInfo :=
  let lines := splitLF input.toList
  let errorMsg := msg.toList.map lowerAscii
  match unterminatedCheck lines errorMsg with
  | some r => r
  | none =>
  match missingCommaScan 0 lines with
  | some (i, raw) =>
    ⟨some (i + 1), some raw.length, some ("Add comma (,) at the end of line " ++ toString (i + 1))⟩
  | none =>
  match missingColonScan 0 lines with
  | some i => ⟨some (i + 1), none, some ("Add colon (:) after the property name")⟩
  | none =>
  match trackBrackets input.toList with
  | some e => ⟨some e.line, some e.column, some e.suggestion⟩
  | none =>
  match trailingCommaScan 0 lines with
  | some (i, isBrace) =>
    ⟨some (i + 1), none,
      some ("Remove trailing comma - not allowed before closing " ++
        (if isBrace then ("brace") else ("bracket")))⟩
  | none =>
  match findDuplicateKeys lines with
  | some (i, k, first) =>
    ⟨some (i + 1), none,
      some ("Duplicate key \"" ++ (⟨k⟩ : String) ++ "\" - first occurrence was at line " ++
        toString first)⟩
  | none =>
  match firefoxMatch msg.toList with
  | some (l, c) => ⟨some l, some c, some ("Check syntax at this location")⟩
  | none =>
  match positionMatch msg.toList with
  | some n => positionFallback input.toList n
  | none => ⟨none, none, some ("Check your JSON syntax")⟩

/-! ### `validateJson` -/

structure JsonError where
  message : String
  line : Option Nat
  column : Option Nat
  suggestion : Option String
deriving DecidableEq, Repr

structure ValidationResult where
  valid : Bool
  error : Option JsonError
  parsed : Option JsonValue

/-- Strips the vendor prefixes from the native message:
`.replace(/^JSON\.parse: /, '')` then `.replace(/JSON Parse error: /, '')`
(the second removes the first occurrence anywhere). -/
def removeFirstSeq (pat : List Char) : List Char → List Char
  | [] => []
  | c :: rest =>
    if pat.isPrefixOf (c :: rest) then (c :: rest).drop pat.length
    else c :: removeFirstSeq pat rest

def cleanMessage (msg : String) : String :=
  let cs := msg.toList
  let cs1 := if (String.toList ("JSON.parse: ")).isPrefixOf cs then cs.drop 12 else cs
  ⟨removeFirstSeq (String.toList ("JSON Parse error: ")) cs1⟩

/-- Model of `validateJson`, parametrised by the external parser so that the
whitespace special case is provably independent of it. -/
def validateJsonWith (parse : String → Except String JsonValue) (input : String) :
    ValidationResult :=
  if (jsTrim input.toList).isEmpty then ⟨true, none, some .null⟩
  else
    match parse input with
    | .ok v => ⟨true, none, some v⟩
    | .error msg =>
      let info := detectJsonError input msg
      ⟨false, some ⟨cleanMessage msg, info.line, info.column, info.suggestion⟩, none⟩

/-- Model of `validateJson(input)` with the modelled `JSON.parse`. -/
def validateJson (input : String) : ValidationResult :=
  validateJsonWith jsonParse input

/-! ## Structural value operations -/

/-- JavaScript `typeof` on a decoded JSON value (`typeof null`,
`typeof []` and `typeof {}` are all `"object"`). -/
def jsTypeof : JsonValue → String
  | .null => "object"
  | .bool _ => "boolean"
  | .num _ => "number"
  | .inf _ => "number"
  | .str _ => "string"
  | .arr _ => "object"
  | .obj _ => "object"

/-- JavaScript `===` on two decoded JSON values: primitives by value;
`false` on any pair of arrays/objects, which inside `compareJson` always
come from distinct `JSON.parse` calls and so are never reference-equal
(see the header note). -/
def jsStrictEq : JsonValue → JsonValue → Bool
  | .null, .null => true
  | .bool a, .bool b => a == b
  | .num a, .num b => a == b
  | .inf a, .inf b => a == b
  | .str a, .str b => a == b
  | _, _ => false

/-- Model of `x !== null && typeof x === 'object'`. -/
def jsIsNonNullObject : JsonValue → Bool
  | .arr _ => true
  | .obj _ => true
  | _ => false

/-- Model of `Object.keys`/indexing view of an array: ascending indices as keys. -/
def arrEntries (i : Nat) : List JsonValue → List (String × JsonValue)
  | [] => []
  | v :: rest => (toString i, v) :: arrEntries (i + 1) rest

/-- The key/value entries `Object.keys` + indexing expose, in
enumeration order (integer-key hoisting not modelled, see header). -/
def jsEntries : JsonValue → List (String × JsonValue)
  | .arr l => arrEntries 0 l
  | .obj kvs => kvs
  | _ => []

def jsLookup : List (String × JsonValue) → String → Option JsonValue
  | [], _ => none
  | (k, v) :: rest, key => if k = key then some v else jsLookup rest key

inductive DiffType where
  | added : DiffType
  | removed : DiffType
  | changed : DiffType
  | unchanged : DiffType
deriving DecidableEq, Repr

/-- One entry of `compareJson`'s result. -/
structure DiffResult where
  type : DiffType
  path : String
  leftValue : Option JsonValue
  rightValue : Option JsonValue

/-- Model of `path ? `${path}.${key}` : key`. -/
def keyPath (path k : String) : String :=
  if path = "" then k else path ++ "." ++ k

/-- Model of ``${path}[${i}]``. -/
def itemPath (path : String) (i : Nat) : String :=
  path ++ "[" ++ toString i ++ "]"

/-! `jsize`: node-count measure used only for the termination of the
comparison and serialisation functions (strings and numbers count 1). -/

mutual

def jsize : JsonValue → Nat
  | .null => 1
  | .bool _ => 1
  | .num _ => 1
  | .inf _ => 1
  | .str _ => 1
  | .arr l => 1 + jsizeArr l
  | .obj kvs => 1 + jsizeObj kvs

def jsizeArr : List JsonValue → Nat
  | [] => 0
  | v :: rest => 1 + jsize v + jsizeArr rest

def jsizeObj : List (String × JsonValue) → Nat
  | [] => 0
  | p :: rest => 1 + jsize p.2 + jsizeObj rest

end

theorem jsizeObj_arrEntries (l : List JsonValue) : ∀ i, jsizeObj (arrEntries i l) = jsizeArr l := by
  induction l with
  | nil => intro i; simp [arrEntries, jsizeObj, jsizeArr]
  | cons v rest ih => intro i; simp [arrEntries, jsizeObj, jsizeArr, ih]

theorem jsizeObj_jsEntries_lt (v : JsonValue) : jsizeObj (jsEntries v) < jsize v := by
  cases v <;> simp [jsEntries, jsizeObj, jsize, jsizeObj_arrEntries]

theorem jsLookup_jsize_lt {re : List (String × JsonValue)} {k : String} {rv : JsonValue}
    (h : jsLookup re k = some rv) : jsize rv < jsizeObj re := by
  induction re with
  | nil => simp [jsLookup] at h
  | cons p rest ih =>
    obtain ⟨k0, v0⟩ := p
    simp only [jsLookup] at h
    by_cases hk : k0 = k
    · rw [if_pos hk] at h
      cases h
      simp [jsizeObj]; omega
    · rw [if_neg hk] at h
      have := ih h
      simp [jsizeObj]; omega

/-! The recursive `compare` closure inside `compareJson`, with its two
iteration shapes split off (`compareArr`: the index loop over two
arrays; `compareKeys`: the loop over the left entries).  `compareKeys`
visits the left entries in order; with the duplicate-free key lists the
parser produces this coincides with the `Set`-based iteration of the
source. -/

mutual

def compareVal (L R : JsonValue) (path : String) : List DiffResult :=
  if jsStrictEq L R then []
  else if jsTypeof L ≠ jsTypeof R then [⟨.changed, path, some L, some R⟩]
  else
    match L, R with
    | .arr ls, .arr rs => compareArr ls rs path 0
    | L2, R2 =>
      if jsIsNonNullObject L2 && jsIsNonNullObject R2 then
        compareKeys (jsEntries L2) (jsEntries R2) path ++
          ((jsEntries R2).filter (fun p => (jsLookup (jsEntries L2) p.1).isNone)).map
            (fun p => ⟨.added, keyPath path p.1, none, some p.2⟩)
      else [⟨.changed, path, some L2, some R2⟩]
termination_by jsize L + jsize R
decreasing_by
  all_goals first
    | (simp [jsize, jsizeArr]; omega)
    | (have h1 := jsizeObj_jsEntries_lt L2
       have h2 := jsizeObj_jsEntries_lt R2
       omega)

def compareArr (ls rs : List JsonValue) (path : String) (i : Nat) : List DiffResult :=
  match ls, rs with
  | [], [] => []
  | [], r :: rs1 => ⟨.added, itemPath path i, none, some r⟩ :: compareArr [] rs1 path (i + 1)
  | l :: ls1, [] => ⟨.removed, itemPath path i, some l, none⟩ :: compareArr ls1 [] path (i + 1)
  | l :: ls1, r :: rs1 =>
    compareVal l r (itemPath path i) ++ compareArr ls1 rs1 path (i + 1)
termination_by jsizeArr ls + jsizeArr rs
decreasing_by
  all_goals simp [jsizeArr]
  all_goals omega

def compareKeys (le re : List (String × JsonValue)) (path : String) : List DiffResult :=
  match le with
  | [] => []
  | (k, v) :: rest =>
    match h : jsLookup re k with
    | none => ⟨.removed, keyPath path k, some v, none⟩ :: compareKeys rest re path
    | some rv => compareVal v rv (keyPath path k) ++ compareKeys rest re path
termination_by jsizeObj le + jsizeObj re
decreasing_by
  all_goals try simp [jsizeObj]
  all_goals try omega
  all_goals (have hlk := jsLookup_jsize_lt h; omega)

end

/-- Model of `compareJson(left, right)`. -/
def compareJson (left right : String) : List DiffResult :=
  let leftResult := validateJson left
  let rightResult := validateJson right
  if !leftResult.valid || !rightResult.valid then []
  else
    match leftResult.parsed, rightResult.parsed with
    | some lv, some rv => compareVal lv rv ("")
    | _, _ => []

/-! ## Modelled `JSON.stringify`

External to the repository.  Compact form (`JSON.stringify(v)`) and
indented form (`JSON.stringify(v, null, n)`, `1 ≤ n ≤ 10`).  A
non-finite number (`Infinity`) serialises as `null`, as in
ECMAScript. -/

def hexDigitChar (n : Nat) : Char :=
  if n < 10 then Char.ofNat (48 + n) else Char.ofNat (87 + n)

/-- Model of `JSON.stringify`'s escaping of one string character: quote,
backslash and the five short control escapes, other control characters
as `\u00XX`, everything else verbatim. -/
def escapeChar (c : Char) : List Char :=
  if c = '"' then ['\\', '"']
  else if c = '\\' then ['\\', '\\']
  else if c = '\x08' then ['\\', 'b']
  else if c = '\x0c' then ['\\', 'f']
  else if c = '\n' then ['\\', 'n']
  else if c = '\r' then ['\\', 'r']
  else if c = '\t' then ['\\', 't']
  else if c.toNat < 0x20 then
    ['\\', 'u', '0', '0', hexDigitChar (c.toNat / 16), hexDigitChar (c.toNat % 16)]
  else [c]

/-- A double-quoted, escaped JSON string literal. -/
def quoteString (str : String) : List Char :=
  '"' :: (str.toList.map escapeChar).flatten ++ ['"']

mutual

def stringifyVal : JsonValue → List Char
  | .null => String.toList ("null")
  | .bool true => String.toList ("true")
  | .bool false => String.toList ("false")
  | .num lex => lex.toList
  | .inf _ => String.toList ("null")
  | .str str => quoteString str
  | .arr l => '[' :: stringifyElems l ++ [']']
  | .obj kvs => '{' :: stringifyMembers kvs ++ ['}']
termination_by v => sizeOf v

def stringifyElems : List JsonValue → List Char
  | [] => []
  | [v] => stringifyVal v
  | v :: v1 :: rest => stringifyVal v ++ ',' :: stringifyElems (v1 :: rest)
termination_by l => sizeOf l

def stringifyMembers : List (String × JsonValue) → List Char
  | [] => []
  | [(k, v)] => quoteString k ++ ':' :: stringifyVal v
  | (k, v) :: p :: rest => quoteString k ++ ':' :: stringifyVal v ++ ',' :: stringifyMembers (p :: rest)
termination_by l => sizeOf l

end

mutual

def prettyVal (ind level : Nat) : JsonValue → List Char
  | .arr [] => String.toList ("[]")
  | .obj [] => String.toList ("\x7b\x7d")
  | .arr l =>
    '[' :: '\n' :: prettyElems ind (level + 1) l ++
      '\n' :: List.replicate (ind * level) ' ' ++ [']']
  | .obj kvs =>
    '{' :: '\n' :: prettyMembers ind (level + 1) kvs ++
      '\n' :: List.replicate (ind * level) ' ' ++ ['}']
  | v => stringifyVal v
termination_by v => sizeOf v

def prettyElems (ind level : Nat) : List JsonValue → List Char
  | [] => []
  | [v] => List.replicate (ind * level) ' ' ++ prettyVal ind level v
  | v :: v1 :: rest =>
    List.replicate (ind * level) ' ' ++ prettyVal ind level v ++
      ',' :: '\n' :: prettyElems ind level (v1 :: rest)
termination_by l => sizeOf l

def prettyMembers (ind level : Nat) : List (String × JsonValue) → List Char
  | [] => []
  | [(k, v)] =>
    List.replicate (ind * level) ' ' ++ quoteString k ++ ':' :: ' ' :: prettyVal ind level v
  | (k, v) :: p :: rest =>
    List.replicate (ind * level) ' ' ++ quoteString k ++ ':' :: ' ' :: prettyVal ind level v ++
      ',' :: '\n' :: prettyMembers ind level (p :: rest)
termination_by l => sizeOf l

end

/-- Model of `JSON.stringify(v, null, indent)`: compact when `indent` is 0. -/
def jsonStringifyIndent (v : JsonValue) (indent : Nat) : String :=
  if indent = 0 then ⟨stringifyVal v⟩ else ⟨prettyVal indent 0 v⟩

/-! ## `formatJson`, `minifyJson`, `sortJsonKeys`, `getJsonStats` -/

/-- Model of `result.parsed === null`: the decoded value is the JSON null. -/
def isNullParsed : Option JsonValue → Bool
  | some .null => true
  | _ => false

/-- Model of `formatJson(input, indent)`: no-op on invalid input and on the
explicit-null parse case. -/
def formatJson (input : String) (indent : Nat) : String :=
  let result := validateJson input
  if !result.valid || isNullParsed result.parsed then input
  else
    match result.parsed with
    | some v => jsonStringifyIndent v indent
    | none => input

/-- Model of `minifyJson(input)`. -/
def minifyJson (input : String) : String :=
  let result := validateJson input
  if !result.valid || isNullParsed result.parsed then input
  else
    match result.parsed with
    | some v => (⟨stringifyVal v⟩ : String)
    | none => input

/-- Model of `Object.keys(obj).sort()`'s comparator is the default UTF-16
code-unit order; insertion sort by key. -/
def insertSorted (p : String × JsonValue) : List (String × JsonValue) → List (String × JsonValue)
  | [] => [p]
  | q :: rest => if p.1 ≤ q.1 then p :: q :: rest else q :: insertSorted p rest

def sortByKey (kvs : List (String × JsonValue)) : List (String × JsonValue) :=
  kvs.foldr insertSorted []

/-! `sortObject`: the source builds each object by iterating its keys in
sorted order and recursing into each value; recursing first and then
sorting the (key-untouched) entries produces the same object. -/

mutual

def sortObject : JsonValue → JsonValue
  | .null => .null
  | .bool b => .bool b
  | .num n => .num n
  | .inf s => .inf s
  | .str str => .str str
  | .arr l => .arr (sortObjArr l)
  | .obj kvs => .obj (sortByKey (sortObjMembers kvs))
termination_by v => sizeOf v

def sortObjArr : List JsonValue → List JsonValue
  | [] => []
  | v :: rest => sortObject v :: sortObjArr rest
termination_by l => sizeOf l

def sortObjMembers : List (String × JsonValue) → List (String × JsonValue)
  | [] => []
  | (k, v) :: rest => (k, sortObject v) :: sortObjMembers rest
termination_by l => sizeOf l

end

/-- Model of `sortJsonKeys(input, indent)`. -/
def sortJsonKeys (input : String) (indent : Nat) : String :=
  let result := validateJson input
  if !result.valid || isNullParsed result.parsed then input
  else
    match result.parsed with
    | some v => jsonStringifyIndent (sortObject v) indent
    | none => input

/-! `getJsonStats`'s traversal, functionally: `statsKeysVal` is the total
key count, `statsDepthVal` the maximal nesting depth reached when the
root is at depth 0. -/

mutual

def statsKeysVal : JsonValue → Nat
  | .arr l => statsKeysArr l
  | .obj kvs => kvs.length + statsKeysObj kvs
  | _ => 0
termination_by v => sizeOf v

def statsKeysArr : List JsonValue → Nat
  | [] => 0
  | v :: rest => statsKeysVal v + statsKeysArr rest
termination_by l => sizeOf l

def statsKeysObj : List (String × JsonValue) → Nat
  | [] => 0
  | (_, v) :: rest => statsKeysVal v + statsKeysObj rest
termination_by l => sizeOf l

end

mutual

def statsDepthVal : JsonValue → Nat
  | .arr l => statsDepthArr l
  | .obj kvs => statsDepthObj kvs
  | _ => 0
termination_by v => sizeOf v

def statsDepthArr : List JsonValue → Nat
  | [] => 0
  | v :: rest => max (1 + statsDepthVal v) (statsDepthArr rest)
termination_by l => sizeOf l

def statsDepthObj : List (String × JsonValue) → Nat
  | [] => 0
  | (_, v) :: rest => max (1 + statsDepthVal v) (statsDepthObj rest)
termination_by l => sizeOf l

end

/-- Model of `getJsonStats`'s result; `sizeBytes` is the raw UTF-8 byte count of
the input (the argument of the display-only `formatBytes`, whose
floating-point formatting is not modelled). -/
structure JsonStats where
  keys : Nat
  depth : Nat
  sizeBytes : Nat
deriving DecidableEq, Repr

/-- Model of `getJsonStats(input)`: zeros on invalid input and on the
explicit-null parse case. -/
def getJsonStats (input : String) : JsonStats :=
  let result := validateJson input
  if !result.valid || isNullParsed result.parsed then ⟨0, 0, input.utf8ByteSize⟩
  else
    match result.parsed with
    | some v => ⟨statsKeysVal v, statsDepthVal v, input.utf8ByteSize⟩
    | none => ⟨0, 0, input.utf8ByteSize⟩

/-! ## Accessors and spec-side notions used by the claim theorems -/

/-- The reported line of a validation result's error, when any. -/
def errLine (r : ValidationResult) : Option Nat :=
  match r.error with
  | some e => e.line
  | none => none

/-- The reported column of a validation result's error, when any. -/
def errColumn (r : ValidationResult) : Option Nat :=
  match r.error with
  | some e => e.column
  | none => none

/-- The reported suggestion of a validation result's error, when any. -/
def errSuggestion (r : ValidationResult) : Option String :=
  match r.error with
  | some e => e.suggestion
  | none => none

/-- The JSON type of a value, in the spec's sense (six kinds; arrays and
objects are distinct types, unlike under JavaScript `typeof`). -/
def jsonTypeName : JsonValue → String
  | .null => "null"
  | .bool _ => "boolean"
  | .num _ => "number"
  | .inf _ => "number"
  | .str _ => "string"
  | .arr _ => "array"
  | .obj _ => "object"

/-! ## Well-formedness of parsed values

`WFJson` holds of every value `JSON.parse` can produce: number lexemes
are valid, non-empty runs of number characters, and object key lists are
duplicate-free (ECMAScript objects collapse duplicates on construction). -/

inductive WFJson : JsonValue → Prop where
  | null : WFJson .null
  | bool : ∀ b, WFJson (.bool b)
  | num : ∀ lex : String, lex.data ≠ [] → lex.data.all isNumChar = true →
      isNumLit lex.data = true → WFJson (.num lex)
  | str : ∀ str : String, WFJson (.str str)
  | arr : ∀ l, (∀ e ∈ l, WFJson e) → WFJson (.arr l)
  | obj : ∀ kvs : List (String × JsonValue), (kvs.map Prod.fst).Nodup →
      (∀ p ∈ kvs, WFJson p.2) → WFJson (.obj kvs)

/-- Well-formedness after the double-overflow pass: like `WFJson`, but
`Infinity` leaves are allowed and number lexemes are unconstrained (the
comparison lemmas never inspect lexemes). -/
inductive WFVal : JsonValue → Prop where
  | null : WFVal .null
  | bool : ∀ b, WFVal (.bool b)
  | num : ∀ lex : String, WFVal (.num lex)
  | inf : ∀ s, WFVal (.inf s)
  | str : ∀ str : String, WFVal (.str str)
  | arr : ∀ l, (∀ e ∈ l, WFVal e) → WFVal (.arr l)
  | obj : ∀ kvs : List (String × JsonValue), (kvs.map Prod.fst).Nodup →
      (∀ p ∈ kvs, WFVal p.2) → WFVal (.obj kvs)

/-- Holds when the parsed value, if any, contains no number literal that
overflowed the double range (no `Infinity` leaf). -/
def finiteParsed : Option JsonValue → Bool
  | some v => !(hasInf v)
  | none => true

/-- The invariants each parser request maintains on its accumulator. -/
def ReqWF : ParseReq → Prop
  | .val _ => True
  | .elems acc _ _ => ∀ e ∈ acc, WFJson e
  | .members acc _ _ => (∀ p ∈ acc, WFJson p.2) ∧ (acc.map Prod.fst).Nodup

/-- Whether a number lexeme may be followed by this continuation without
the maximal-munch lexer absorbing part of it. -/
def NumBoundary : List Char → Prop
  | [] => True
  | c :: _ => isNumChar c = false

/-! # Claim theorems -/

/-- C3: every input that is empty or consists only of (ECMAScript)
whitespace characters validates as `{valid: true, parsed: null}`, and
does so for an arbitrary parser — the explicit special case is not
routed through the JSON parser. -/
theorem claim3_whitespace_valid (input : String)
    (h : input.toList.all isJsTrimWs = true) :
    (∀ parse, validateJsonWith parse input = ⟨true, none, some .null⟩) ∧
    validateJson input = ⟨true, none, some .null⟩ := by
  have h1 : input.data.dropWhile isJsTrimWs = [] := by
    rw [List.dropWhile_eq_nil_iff]
    intro x hx
    exact List.all_eq_true.mp h x hx
  have h2 : jsTrim input.data = [] := by
    unfold jsTrim
    rw [h1]
    rfl
  refine ⟨fun parse => ?_, ?_⟩ <;>
    simp [validateJson, validateJsonWith, String.toList, h2]

/-- Witness for C3 at the concrete whitespace input `" \t\n\r "`. -/
theorem claim3_whitespace_valid_witness :
    (String.toList (" \t\n\r ")).all isJsTrimWs = true ∧
    validateJson (" \t\n\r ") = ⟨true, none, some .null⟩ :=
  ⟨by decide, (claim3_whitespace_valid (" \t\n\r ") (by decide)).2⟩

/-- C6: whenever the delimiter tracker's pass over the whole input ends
without an early error but with a non-empty stack, the reported error
carries the line and column of the top of the stack — the most recently
opened, innermost unclosed delimiter — and the suggestion to add its
matching closer. -/
theorem claim6_unclosed_reports_top (input : List Char) (s : BState)
    (top : BEntry) (rest : List BEntry)
    (hrun : brRun 1 ⟨[], false, false⟩ (splitLF input) = .ok s)
    (hstack : s.stack = top :: rest) :
    trackBrackets input = some ⟨top.line, top.column, unclosedSuggestion top.char⟩ := by
  simp [trackBrackets, hrun, hstack]

/-- Witness for C6 at `"[{"`: both `[` and `{` are left open; the error
reports the inner `{` (line 1, column 2), not the outer `[`. -/
theorem claim6_unclosed_reports_top_witness :
    brRun 1 ⟨[], false, false⟩ (splitLF (String.toList ("[\x7b"))) =
      .ok ⟨[⟨'{', 1, 2⟩, ⟨'[', 1, 1⟩], false, false⟩ ∧
    trackBrackets (String.toList ("[\x7b")) = some ⟨1, 2, unclosedSuggestion '{'⟩ :=
  ⟨rfl, claim6_unclosed_reports_top (String.toList ("[\x7b"))
    ⟨[⟨'{', 1, 2⟩, ⟨'[', 1, 1⟩], false, false⟩ ⟨'{', 1, 2⟩ [⟨'[', 1, 1⟩] rfl rfl⟩

/-- C9: a document whose only defect is a duplicate object key is valid:
the parse succeeds last-value-wins, the result carries no error (so the
duplicate-key diagnosis path is never consulted), and the decoded value
is the object `{name: "Jane", age: 30}`. -/
theorem claim9_duplicate_key_valid :
    validateJson ("\x7b\"name\": \"John\", \"age\": 30, \"name\": \"Jane\"\x7d") =
      ⟨true, none, some (.obj [("name", .str ("Jane")), ("age", .num ("30"))])⟩ := rfl

/-- C10 (amended): the escape flag persists across line boundaries.  If
processing a line whose final character is a backslash leaves the
tracker with its escape flag set (i.e. that backslash is not itself
escaped), then the first character of the following line — whatever it
is, including `{`, `[`, `}`, `]` or `"`, and regardless of the
in-string flag — is consumed as escaped: the stack and the in-string
flag are unchanged by it and scanning resumes at column 2 with the flag
cleared. -/
theorem claim10_escape_crosses_lines (i : Nat) (s s2 : BState) (l : List Char)
    (c : Char) (rest : List Char)
    (hline : brLine i 1 s l = .ok s2)
    (hlast : l.getLast? = some '\\')
    (hesc : s2.escaped = true) :
    brLine (i + 1) 1 s2 (c :: rest) =
      brLine (i + 1) 2 ⟨s2.stack, s2.inString, false⟩ rest := by
  simp [brLine, brStep, hesc]

/-- Witness for C10 at the lines `"{\"` and `"}"`: the brace line ends
in an escaping backslash, and the following line's `}` is consumed
without touching the stack. -/
theorem claim10_escape_crosses_lines_witness :
    brLine 1 1 ⟨[], false, false⟩ (String.toList ("\x7b\\")) =
      .ok ⟨[⟨'{', 1, 1⟩], false, true⟩ ∧
    brLine 2 1 ⟨[⟨'{', 1, 1⟩], false, true⟩ (String.toList ("\x7d")) =
      brLine 2 2 ⟨[⟨'{', 1, 1⟩], false, false⟩ [] :=
  ⟨rfl, claim10_escape_crosses_lines 1 ⟨[], false, false⟩ ⟨[⟨'{', 1, 1⟩], false, true⟩
    (String.toList ("\x7b\\")) '}' [] rfl rfl rfl⟩

/-- Counterexample to C10 as stated: in `"\\\\\n}"` the first line's final
character is a backslash, but that backslash is itself escaped by the
one before it, so the `}` opening the next line is NOT consumed as
escaped: the tracker reports an unexpected closing brace at line 2,
column 1 (were the `}` inert, the scan would end with an empty stack
and no error). -/
theorem claim10_counterexample :
    (String.toList ("\\\\")).getLast? = some '\\' ∧
    trackBrackets (String.toList ("\\\\\n\x7d")) =
      some ⟨2, 1, "Unexpected closing brace - no matching opening"⟩ :=
  ⟨rfl, rfl⟩

/-- C4 (amended): for every invalid input on which the unterminated-string
check yields nothing and the missing-comma scan fires at its first pair
`i`, the diagnosis reports line `i+1`, column equal to the RAW
(untrimmed) current line's length, and the add-a-comma suggestion. -/
theorem claim4_missing_comma (input msg : String) (i : Nat) (raw : List Char)
    (hv : (validateJson input).valid = false)
    (hmsg : jsonParse input = .error msg)
    (h1 : unterminatedCheck (splitLF input.data) (msg.data.map lowerAscii) = none)
    (h2 : missingCommaScan 0 (splitLF input.data) = some (i, raw)) :
    errLine (validateJson input) = some (i + 1) ∧
    errColumn (validateJson input) = some raw.length ∧
    errSuggestion (validateJson input) =
      some ("Add comma (,) at the end of line " ++ toString (i + 1)) := by
  have hdet : detectJsonError input msg =
      ⟨some (i + 1), some raw.length,
        some ("Add comma (,) at the end of line " ++ toString (i + 1))⟩ := by
    unfold detectJsonError
    simp only [String.toList]
    rw [h1, h2]
  by_cases hb : (jsTrim input.data).isEmpty = true
  · exfalso
    have : validateJson input = ⟨true, none, some .null⟩ := by
      simp [validateJson, validateJsonWith, String.toList, hb]
    rw [this] at hv
    simp at hv
  · have hres : validateJson input =
        ⟨false, some ⟨cleanMessage msg, (detectJsonError input msg).line,
          (detectJsonError input msg).column, (detectJsonError input msg).suggestion⟩, none⟩ := by
      simp [validateJson, validateJsonWith, String.toList, hb, hmsg]
    rw [hres, hdet]
    exact ⟨rfl, rfl, rfl⟩

/-- Witness for C4, the spec's own scenario: the missing-comma pair is at
0-based index 1, so the diagnosis is at line 2 with the comma
suggestion; the reported column 21 is the raw line's length. -/
theorem claim4_missing_comma_witness :
    (validateJson ("\x7b\n  \"eventId\": \"e_0001\"\n  \"type\": \"deployment\"\n\x7d")).valid = false ∧
    errLine (validateJson ("\x7b\n  \"eventId\": \"e_0001\"\n  \"type\": \"deployment\"\n\x7d")) = some 2 ∧
    errColumn (validateJson ("\x7b\n  \"eventId\": \"e_0001\"\n  \"type\": \"deployment\"\n\x7d")) =
      some (String.toList ("  \"eventId\": \"e_0001\"")).length ∧
    errSuggestion (validateJson ("\x7b\n  \"eventId\": \"e_0001\"\n  \"type\": \"deployment\"\n\x7d")) =
      some ("Add comma (,) at the end of line " ++ toString 2) :=
  ⟨rfl,
    (claim4_missing_comma ("\x7b\n  \"eventId\": \"e_0001\"\n  \"type\": \"deployment\"\n\x7d")
      ("Unexpected token \" in JSON at position 26") 1
      (String.toList ("  \"eventId\": \"e_0001\"")) rfl rfl rfl rfl).1,
    (claim4_missing_comma ("\x7b\n  \"eventId\": \"e_0001\"\n  \"type\": \"deployment\"\n\x7d")
      ("Unexpected token \" in JSON at position 26") 1
      (String.toList ("  \"eventId\": \"e_0001\"")) rfl rfl rfl rfl).2.1,
    (claim4_missing_comma ("\x7b\n  \"eventId\": \"e_0001\"\n  \"type\": \"deployment\"\n\x7d")
      ("Unexpected token \" in JSON at position 26") 1
      (String.toList ("  \"eventId\": \"e_0001\"")) rfl rfl rfl rfl).2.2⟩

/-- Counterexample to C4 as stated: on the spec's own scenario the
reported column is 21, the length of the raw line `  "eventId": "e_0001"`,
not 19, the length of its trimmed form as the claim asserts. -/
theorem claim4_counterexample :
    errColumn (validateJson ("\x7b\n  \"eventId\": \"e_0001\"\n  \"type\": \"deployment\"\n\x7d")) =
      some 21 ∧
    (jsTrim (String.toList ("  \"eventId\": \"e_0001\""))).length = 19 :=
  ⟨rfl, rfl⟩

theorem splitLF_ne_nil (cs : List Char) : splitLF cs ≠ [] := by
  induction cs with
  | nil => simp [splitLF]
  | cons c rest ih =>
    by_cases hc : c = '\n'
    · simp [splitLF, hc]
    · simp only [splitLF, if_neg hc]
      match h : splitLF rest with
      | [] => simp
      | h1 :: t => simp

theorem splitLF_length (cs : List Char) : (splitLF cs).length = cs.count '\n' + 1 := by
  induction cs with
  | nil => simp [splitLF]
  | cons c rest ih =>
    by_cases hc : c = '\n'
    · subst hc
      simp [splitLF, List.count_cons, ih]
    · rw [List.count_cons]
      simp only [splitLF, if_neg hc]
      have hne := splitLF_ne_nil rest
      match h : splitLF rest with
      | [] => exact absurd h hne
      | h1 :: t =>
        rw [h] at ih
        simp only [List.length_cons] at ih ⊢
        simp [hc, ih]

/-- C5 (amended): when no heuristic check fires, the firefox-style
pattern is absent and the native message matches `position N`, the
fallback reports line `1 + (number of line feeds in the input before
offset N)` and column equal to the length of the text between the last
line feed before the offset and the offset — a 0-based column that can
be 0, not the 1-based positive column the claim asserts. -/
theorem claim5_position_fallback (input msg : String) (n : Nat)
    (hv : (validateJson input).valid = false)
    (hmsg : jsonParse input = .error msg)
    (h1 : unterminatedCheck (splitLF input.data) (msg.data.map lowerAscii) = none)
    (h2 : missingCommaScan 0 (splitLF input.data) = none)
    (h3 : missingColonScan 0 (splitLF input.data) = none)
    (h4 : trackBrackets input.data = none)
    (h5 : trailingCommaScan 0 (splitLF input.data) = none)
    (h6 : findDuplicateKeys (splitLF input.data) = none)
    (h7 : firefoxMatch msg.data = none)
    (h8 : positionMatch msg.data = some n) :
    errLine (validateJson input) = some ((input.data.take n).count '\n' + 1) ∧
    errColumn (validateJson input) = some ((splitLF (input.data.take n)).getLast?.getD []).length := by
  have hdet : detectJsonError input msg = positionFallback input.data n := by
    unfold detectJsonError
    simp only [String.toList]
    rw [h1, h2, h3, h4, h5, h6, h7, h8]
  by_cases hb : (jsTrim input.data).isEmpty = true
  · exfalso
    have : validateJson input = ⟨true, none, some .null⟩ := by
      simp [validateJson, validateJsonWith, String.toList, hb]
    rw [this] at hv
    simp at hv
  · have hres : validateJson input =
        ⟨false, some ⟨cleanMessage msg, (detectJsonError input msg).line,
          (detectJsonError input msg).column, (detectJsonError input msg).suggestion⟩, none⟩ := by
      simp [validateJson, validateJsonWith, String.toList, hb, hmsg]
    rw [hres, hdet]
    refine ⟨?_, rfl⟩
    show some (splitLF (input.data.take n)).length = _
    rw [splitLF_length]

/-- Witness for C5 at `"true\nx"`, whose native error is
`Unexpected token x in JSON at position 5`: offset 5 sits at the start
of line 2, so the fallback reports line 2 and column 0. -/
theorem claim5_position_fallback_witness :
    (validateJson ("true\nx")).valid = false ∧
    jsonParse ("true\nx") = .error ("Unexpected token x in JSON at position 5") ∧
    errLine (validateJson ("true\nx")) = some 2 ∧
    errColumn (validateJson ("true\nx")) = some 0 :=
  ⟨rfl, rfl,
    (claim5_position_fallback ("true\nx") ("Unexpected token x in JSON at position 5") 5
      rfl rfl rfl rfl rfl rfl rfl rfl rfl rfl).1,
    (claim5_position_fallback ("true\nx") ("Unexpected token x in JSON at position 5") 5
      rfl rfl rfl rfl rfl rfl rfl rfl rfl rfl).2⟩

/-- Counterexample to C5 as stated: for the invalid input `"true\nx"`
(native message `Unexpected token x in JSON at position 5`, no heuristic
fires) the fallback's reported column is 0, which is not a positive
1-based column. -/
theorem claim5_counterexample :
    (validateJson ("true\nx")).valid = false ∧
    jsonParse ("true\nx") = .error ("Unexpected token x in JSON at position 5") ∧
    errColumn (validateJson ("true\nx")) = some 0 :=
  ⟨rfl, rfl, rfl⟩

/-- C2 (amended): on every input whose validation fails, `formatJson`,
`minifyJson` and `sortJsonKeys` return the input unchanged, `compareJson`
with that input on either side returns `[]`, and `getJsonStats` reports
`keys = 0` and `depth = 0`.  On the explicit-null parse case the three
text operations are likewise no-ops and the stats are zero, but
`compareJson` proceeds with the decoded `null` (it has no null guard),
so the claim's empty-diff promise is restricted to the failing case. -/
theorem claim2_invalid_noops (input : String) :
    ((validateJson input).valid = false →
      (∀ indent, formatJson input indent = input) ∧
      minifyJson input = input ∧
      (∀ indent, sortJsonKeys input indent = input) ∧
      (∀ other, compareJson input other = [] ∧ compareJson other input = []) ∧
      (getJsonStats input).keys = 0 ∧ (getJsonStats input).depth = 0) ∧
    (isNullParsed (validateJson input).parsed = true →
      (∀ indent, formatJson input indent = input) ∧
      minifyJson input = input ∧
      (∀ indent, sortJsonKeys input indent = input) ∧
      (getJsonStats input).keys = 0 ∧ (getJsonStats input).depth = 0) := by
  constructor
  · intro hv
    refine ⟨fun indent => ?_, ?_, fun indent => ?_, fun other => ⟨?_, ?_⟩, ?_, ?_⟩ <;>
      simp [formatJson, minifyJson, sortJsonKeys, compareJson, getJsonStats, hv]
  · intro hp
    refine ⟨fun indent => ?_, ?_, fun indent => ?_, ?_, ?_⟩ <;>
      simp [formatJson, minifyJson, sortJsonKeys, getJsonStats, hp]

/-- Witness for C2 at the invalid input `"{"` and the explicit-null input
`""`. -/
theorem claim2_invalid_noops_witness :
    minifyJson ("\x7b") = "\x7b" ∧ formatJson ("\x7b") 2 = "\x7b" ∧
    (getJsonStats ("\x7b")).keys = 0 ∧ compareJson ("\x7b") ("1") = [] ∧
    minifyJson ("") = "" ∧ (getJsonStats ("")).depth = 0 :=
  ⟨((claim2_invalid_noops ("\x7b")).1 rfl).2.1,
   ((claim2_invalid_noops ("\x7b")).1 rfl).1 2,
   ((claim2_invalid_noops ("\x7b")).1 rfl).2.2.2.2.1,
   (((claim2_invalid_noops ("\x7b")).1 rfl).2.2.2.1 ("1")).1,
   ((claim2_invalid_noops ("")).2 rfl).2.1,
   ((claim2_invalid_noops ("")).2 rfl).2.2.2.2⟩

/-- Counterexample to C2 as stated: `""` is an explicit-null parse case
(`parsed = null`), yet `compareJson "" "1"` is not empty — compare has
no null guard, so it diffs `null` against `1` and emits a `changed`
entry at the root. -/
theorem claim2_counterexample :
    isNullParsed (validateJson ("")).parsed = true ∧
    compareJson ("") ("1") = [⟨.changed, "", some .null, some (.num ("1"))⟩] := by
  refine ⟨rfl, ?_⟩
  have h1 : validateJson ("") = ⟨true, none, some .null⟩ := rfl
  have h2 : validateJson ("1") = ⟨true, none, some (.num ("1"))⟩ := rfl
  simp [compareJson, h1, h2]
  simp [compareVal, jsStrictEq, jsTypeof]

/-- C1 (amended): at every path where the two sides have different JSON
types, `compare` emits exactly one `changed` entry carrying both values
and does not recurse — EXCEPT when one side is an array and the other an
object: both have JavaScript `typeof` `"object"`, so the code falls into
the object branch and recurses over their keys instead. -/
theorem claim1_changed_on_type_mismatch (L R : JsonValue) (path : String)
    (hty : jsonTypeName L ≠ jsonTypeName R)
    (hao : ¬(∃ ls kvs, L = .arr ls ∧ R = .obj kvs))
    (hoa : ¬(∃ kvs ls, L = .obj kvs ∧ R = .arr ls)) :
    compareVal L R path = [⟨.changed, path, some L, some R⟩] := by
  cases L <;> cases R <;>
    simp_all [compareVal, jsStrictEq, jsTypeof, jsIsNonNullObject, jsonTypeName]

/-- Witness for C1 at `null` vs `[]` (differing JSON types, both of
JavaScript type `"object"`): a single `changed` entry at the root. -/
theorem claim1_changed_on_type_mismatch_witness :
    jsonTypeName .null ≠ jsonTypeName (.arr []) ∧
    compareVal .null (.arr []) ("") = [⟨.changed, "", some .null, some (.arr [])⟩] :=
  ⟨by decide,
   claim1_changed_on_type_mismatch .null (.arr []) ("") (by decide)
     (by rintro ⟨ls, kvs, h, -⟩; cases h)
     (by rintro ⟨kvs, ls, h, -⟩; cases h)⟩

/-- Counterexample to C1 as stated: `[1]` and `{"0": 1}` have differing
JSON types (array vs object) at the root path, yet `compareJson` emits
NO entry at all: it recurses into both as objects, finds the key `"0"`
on both sides with equal values, and returns an empty diff. -/
theorem claim1_counterexample :
    (validateJson ("[1]")).parsed = some (.arr [.num ("1")]) ∧
    (validateJson ("\x7b\"0\":1\x7d")).parsed = some (.obj [("0", .num ("1"))]) ∧
    jsonTypeName (.arr [.num ("1")]) ≠ jsonTypeName (.obj [("0", .num ("1"))]) ∧
    compareJson ("[1]") ("\x7b\"0\":1\x7d") = [] := by
  refine ⟨rfl, rfl, by decide, ?_⟩
  have h1 : validateJson ("[1]") = ⟨true, none, some (.arr [.num ("1")])⟩ := rfl
  have h2 : validateJson ("\x7b\"0\":1\x7d") = ⟨true, none, some (.obj [("0", .num ("1"))])⟩ := rfl
  have e1 : arrEntries 0 [JsonValue.num ("1")] = [("0", .num ("1"))] := rfl
  simp [compareJson, h1, h2]
  simp [compareVal, compareKeys, jsStrictEq, jsTypeof, jsIsNonNullObject, jsEntries,
    e1, jsLookup, keyPath]
  rfl

theorem takeWhile_all {α : Type} (p : α → Bool) (l : List α) :
    (l.takeWhile p).all p = true := by
  induction l with
  | nil => rfl
  | cons a rest ih =>
    by_cases hp : p a
    · simp [List.takeWhile_cons, hp, ih]
    · simp [List.takeWhile_cons, hp]

theorem insertKV_mem_keys (acc : List (String × JsonValue)) (k : String) (v : JsonValue)
    (x : String) :
    x ∈ (insertKV acc k v).map Prod.fst ↔ x ∈ acc.map Prod.fst ∨ x = k := by
  induction acc with
  | nil => simp [insertKV]
  | cons p rest ih =>
    obtain ⟨k0, v0⟩ := p
    by_cases hk : k0 = k
    · subst hk
      simp [insertKV]
      tauto
    · simp [insertKV, hk, ih]
      tauto

theorem insertKV_nodup (acc : List (String × JsonValue)) (k : String) (v : JsonValue)
    (h : (acc.map Prod.fst).Nodup) : ((insertKV acc k v).map Prod.fst).Nodup := by
  induction acc with
  | nil => simp [insertKV]
  | cons p rest ih =>
    obtain ⟨k0, v0⟩ := p
    simp only [List.map_cons, List.nodup_cons] at h
    by_cases hk : k0 = k
    · subst hk
      simpa [insertKV] using h
    · simp only [insertKV, if_neg hk, List.map_cons, List.nodup_cons]
      refine ⟨?_, ih h.2⟩
      rw [insertKV_mem_keys]
      push_neg
      exact ⟨h.1, hk⟩

theorem insertKV_wf (acc : List (String × JsonValue)) (k : String) (v : JsonValue)
    (hacc : ∀ p ∈ acc, WFJson p.2) (hv : WFJson v) :
    ∀ p ∈ insertKV acc k v, WFJson p.2 := by
  induction acc with
  | nil =>
    intro p hp
    simp [insertKV] at hp
    subst hp
    exact hv
  | cons q rest ih =>
    obtain ⟨k0, v0⟩ := q
    intro p hp
    by_cases hk : k0 = k
    · subst hk
      simp only [insertKV, if_pos rfl] at hp
      rcases List.mem_cons.mp hp with h | h
      · subst h; exact hv
      · exact hacc p (List.mem_cons_of_mem _ h)
    · simp only [insertKV, if_neg hk] at hp
      rcases List.mem_cons.mp hp with h | h
      · subst h; exact hacc (k0, v0) (List.mem_cons_self _ _)
      · exact ih (fun q hq => hacc q (List.mem_cons_of_mem _ hq)) p h

theorem parseGo_wf : ∀ (fuel : Nat) (req : ParseReq) (v : JsonValue) (rest : List Char),
    parseGo fuel req = .ok (v, rest) → ReqWF req → WFJson v := by
  intro fuel
  induction fuel with
  | zero => intro req v rest h _; simp [parseGo] at h
  | succ fuel ih =>
    intro req v rest h hreq
    match req with
    | .val cs =>
      match cs with
      | [] => simp [parseGo] at h
      | c :: r =>
        simp only [parseGo] at h
        split at h
        · -- c = 'n'
          split at h
          · cases h; exact WFJson.null
          · cases h
        · split at h
          · -- c = 't'
            split at h
            · cases h; exact WFJson.bool true
            · cases h
          · split at h
            · -- c = 'f'
              split at h
              · cases h; exact WFJson.bool false
              · cases h
            · split at h
              · -- c = '"'
                split at h
                · cases h
                · cases h
                  exact WFJson.str _
              · split at h
                · -- c = '['
                  exact ih _ _ _ h (fun e he => absurd he (List.not_mem_nil e))
                · split at h
                  · -- c = '{'
                    exact ih _ _ _ h
                      ⟨fun p hp => absurd hp (List.not_mem_nil p), List.nodup_nil⟩
                  · split at h
                    · -- number start
                      split at h
                      · cases h
                        refine WFJson.num _ ?_ ?_ ?_
                        · intro hempty
                          rename_i hlit
                          replace hempty : List.takeWhile isNumChar (c :: r) = [] := hempty
                          rw [hempty] at hlit
                          simp [isNumLit] at hlit
                        · exact takeWhile_all isNumChar (c :: r)
                        · rename_i hlit
                          exact hlit
                      · cases h
                    · cases h
    | .elems acc atStart cs =>
      match cs with
      | [] => simp [parseGo] at h
      | c :: r =>
        simp only [parseGo] at h
        split at h
        · -- c = ']'
          split at h
          · cases h
            exact WFJson.arr _ (fun e he => hreq e (List.mem_reverse.mp he))
          · cases h
        · split at h
          · cases h
          · rename_i v1 rest1 heq1
            split at h
            · cases h
            · -- skipWs rest1 = c1 :: r1
              split at h
              · -- c1 = ']'
                cases h
                refine WFJson.arr _ (fun e he => ?_)
                rcases List.mem_cons.mp (List.mem_reverse.mp he) with h1 | h1
                · subst h1; exact ih _ _ _ heq1 trivial
                · exact hreq e h1
              · split at h
                · -- c1 = ','
                  exact ih _ _ _ h
                    (fun e he => by
                      rcases List.mem_cons.mp he with h1 | h1
                      · subst h1; exact ih _ _ _ heq1 trivial
                      · exact hreq e h1)
                · cases h
    | .members acc atStart cs =>
      match cs with
      | [] => simp [parseGo] at h
      | c :: r =>
        simp only [parseGo] at h
        split at h
        · -- c = '}'
          split at h
          · cases h
            exact WFJson.obj _ hreq.2 hreq.1
          · cases h
        · split at h
          · -- c = '"'
            split at h
            · cases h
            · rename_i k rest1 heq1
              split at h
              · cases h
              · -- skipWs rest1 = c1 :: r2
                split at h
                · -- c1 = ':'
                  split at h
                  · cases h
                  · rename_i v1 rest2 heq2
                    split at h
                    · cases h
                    · -- skipWs rest2 = c2 :: r3
                      split at h
                      · -- c2 = '}'
                        cases h
                        exact WFJson.obj _ (insertKV_nodup _ _ _ hreq.2)
                          (insertKV_wf _ _ _ hreq.1 (ih _ _ _ heq2 trivial))
                      · split at h
                        · -- c2 = ','
                          exact ih _ _ _ h
                            ⟨insertKV_wf _ _ _ hreq.1 (ih _ _ _ heq2 trivial),
                             insertKV_nodup _ _ _ hreq.2⟩
                        · cases h
                · cases h
          · cases h

theorem jsonParseE_ok (input : String) (v : JsonValue) (h : jsonParseE input = .ok v) :
    ∃ v0, WFJson v0 ∧ v = coerceNums v0 := by
  simp only [jsonParseE] at h
  split at h
  · cases h
  · rename_i v1 rest1 heq1
    split at h
    · cases h
      exact ⟨v1, parseGo_wf _ _ _ _ heq1 trivial, rfl⟩
    · cases h

theorem jsonParse_ok (input : String) (v : JsonValue) (h : jsonParse input = .ok v) :
    ∃ v0, WFJson v0 ∧ v = coerceNums v0 := by
  unfold jsonParse at h
  split at h
  · rename_i v1 heq
    cases h
    exact jsonParseE_ok _ _ heq
  · cases h

theorem coerceArr_eq_map (l : List JsonValue) : coerceArr l = l.map coerceNums := by
  induction l with
  | nil => simp [coerceArr]
  | cons v rest ih => simp [coerceArr, ih]

theorem coerceObj_eq_map (kvs : List (String × JsonValue)) :
    coerceObj kvs = kvs.map (fun p => (p.1, coerceNums p.2)) := by
  induction kvs with
  | nil => simp [coerceObj]
  | cons p rest ih =>
    obtain ⟨k, v⟩ := p
    simp [coerceObj, ih]

theorem hasInfArr_eq_any (l : List JsonValue) : hasInfArr l = l.any hasInf := by
  induction l with
  | nil => simp [hasInfArr]
  | cons v rest ih => simp [hasInfArr, ih]

theorem hasInfObj_eq_any (kvs : List (String × JsonValue)) :
    hasInfObj kvs = kvs.any (fun p => hasInf p.2) := by
  induction kvs with
  | nil => simp [hasInfObj]
  | cons p rest ih =>
    obtain ⟨k, v⟩ := p
    simp [hasInfObj, ih]

theorem jsize_pos (v : JsonValue) : 1 ≤ jsize v := by
  cases v <;> simp [jsize]

theorem jsizeArr_mem_le {e : JsonValue} {l : List JsonValue} (h : e ∈ l) :
    jsize e ≤ jsizeArr l := by
  induction l with
  | nil => cases h
  | cons v rest ih =>
    rcases List.mem_cons.mp h with h1 | h1
    · subst h1; simp [jsizeArr]; omega
    · have := ih h1; simp [jsizeArr]; omega

theorem jsizeObj_mem_le {p : String × JsonValue} {kvs : List (String × JsonValue)}
    (h : p ∈ kvs) : jsize p.2 ≤ jsizeObj kvs := by
  induction kvs with
  | nil => cases h
  | cons q rest ih =>
    rcases List.mem_cons.mp h with h1 | h1
    · subst h1; simp [jsizeObj]; omega
    · have := ih h1; simp [jsizeObj]; omega

theorem coerceNums_id_of_noInf : ∀ (n : Nat) (v : JsonValue), jsize v ≤ n →
    hasInf (coerceNums v) = false → coerceNums v = v := by
  intro n
  induction n with
  | zero =>
    intro v hle _
    have := jsize_pos v
    omega
  | succ n ih =>
    intro v hle hni
    match v with
    | .null => simp [coerceNums]
    | .bool b => simp [coerceNums]
    | .inf s => simp [coerceNums, hasInf] at hni
    | .str s => simp [coerceNums]
    | .num lex =>
      by_cases hov : numOverflows lex.data
      · simp [coerceNums, coerceNum, hov, hasInf] at hni
      · simp [coerceNums, coerceNum, hov]
    | .arr l =>
      simp only [coerceNums, hasInf] at hni ⊢
      rw [coerceArr_eq_map] at hni ⊢
      rw [hasInfArr_eq_any] at hni
      have hall : ∀ e ∈ l, hasInf (coerceNums e) = false := by
        intro e he
        have h1 := List.any_eq_false.mp hni (coerceNums e) (List.mem_map.mpr ⟨e, he, rfl⟩)
        simpa using h1
      have hsz : ∀ e ∈ l, jsize e ≤ n := by
        intro e he
        have h1 := jsizeArr_mem_le he
        have h2 : jsize (JsonValue.arr l) = 1 + jsizeArr l := by simp [jsize]
        omega
      have hmap : l.map coerceNums = l.map id :=
        List.map_congr_left (fun e he => ih e (hsz e he) (hall e he))
      rw [hmap, List.map_id]
    | .obj kvs =>
      simp only [coerceNums, hasInf] at hni ⊢
      rw [coerceObj_eq_map] at hni ⊢
      rw [hasInfObj_eq_any] at hni
      have hall : ∀ p ∈ kvs, hasInf (coerceNums p.2) = false := by
        intro p hp
        have h1 := List.any_eq_false.mp hni (p.1, coerceNums p.2)
          (List.mem_map.mpr ⟨p, hp, rfl⟩)
        simpa using h1
      have hsz : ∀ p ∈ kvs, jsize p.2 ≤ n := by
        intro p hp
        have h1 := jsizeObj_mem_le hp
        have h2 : jsize (JsonValue.obj kvs) = 1 + jsizeObj kvs := by simp [jsize]
        omega
      have hmap : kvs.map (fun p => (p.1, coerceNums p.2)) = kvs.map id := by
        refine List.map_congr_left (fun p hp => ?_)
        obtain ⟨k, v2⟩ := p
        have := ih v2 (hsz (k, v2) hp) (hall (k, v2) hp)
        simp [this]
      rw [hmap, List.map_id]

theorem coerceNums_wfval {v : JsonValue} (h : WFJson v) : WFVal (coerceNums v) := by
  induction h with
  | null => exact WFVal.null
  | bool b => exact WFVal.bool b
  | num lex h1 h2 h3 =>
    by_cases hov : numOverflows lex.data
    · simp only [coerceNums, coerceNum, if_pos hov]
      exact WFVal.inf _
    · simp only [coerceNums, coerceNum, if_neg hov]
      exact WFVal.num lex
  | str s => exact WFVal.str s
  | arr l hmem ih =>
    simp only [coerceNums]
    rw [coerceArr_eq_map]
    refine WFVal.arr _ (fun e he => ?_)
    obtain ⟨e0, he0, rfl⟩ := List.mem_map.mp he
    exact ih e0 he0
  | obj kvs hnd hmem ih =>
    simp only [coerceNums]
    rw [coerceObj_eq_map]
    refine WFVal.obj _ ?_ (fun p hp => ?_)
    · have hkeys : (kvs.map (fun p => (p.1, coerceNums p.2))).map Prod.fst =
          kvs.map Prod.fst := by
        simp [List.map_map, Function.comp]
      rw [hkeys]
      exact hnd
    · obtain ⟨q, hq, rfl⟩ := List.mem_map.mp hp
      exact ih q hq

theorem jsonParse_wfval (input : String) (v : JsonValue) (h : jsonParse input = .ok v) :
    WFVal v := by
  obtain ⟨v0, hwf, rfl⟩ := jsonParse_ok input v h
  exact coerceNums_wfval hwf

theorem jsLookup_self {kvs : List (String × JsonValue)}
    (hnd : (kvs.map Prod.fst).Nodup) {k : String} {v : JsonValue}
    (hmem : (k, v) ∈ kvs) : jsLookup kvs k = some v := by
  induction kvs with
  | nil => cases hmem
  | cons q rest ih =>
    obtain ⟨k0, v0⟩ := q
    simp only [List.map_cons, List.nodup_cons] at hnd
    rcases List.mem_cons.mp hmem with h | h
    · cases h
      simp [jsLookup]
    · have hk : k0 ≠ k := by
        intro he
        subst he
        exact hnd.1 (List.mem_map.mpr ⟨(k0, v), h, rfl⟩)
      simp only [jsLookup, if_neg hk]
      exact ih hnd.2 h

theorem filter_eq_nil_of_forall {α : Type} (p : α → Bool) (l : List α)
    (h : ∀ a ∈ l, p a = false) : l.filter p = [] := by
  induction l with
  | nil => rfl
  | cons a rest ih =>
    simp only [List.filter_cons, h a (List.mem_cons_self _ _)]
    exact ih (fun a ha => h a (List.mem_cons_of_mem _ ha))

theorem compareArr_self (ls : List JsonValue)
    (hih : ∀ e ∈ ls, ∀ path, compareVal e e path = []) :
    ∀ path i, compareArr ls ls path i = [] := by
  induction ls with
  | nil => intro path i; simp [compareArr]
  | cons e rest ih =>
    intro path i
    simp only [compareArr]
    rw [hih e (List.mem_cons_self _ _) (itemPath path i),
      ih (fun e he => hih e (List.mem_cons_of_mem _ he)) path (i + 1)]
    rfl

theorem compareKeys_self (re : List (String × JsonValue)) :
    ∀ le, (∀ p ∈ le, jsLookup re p.1 = some p.2) →
      (∀ p ∈ le, ∀ path, compareVal p.2 p.2 path = []) →
      ∀ path, compareKeys le re path = [] := by
  intro le
  induction le with
  | nil => intro _ _ path; simp [compareKeys]
  | cons p rest ih =>
    intro hsub hih path
    obtain ⟨k, v⟩ := p
    have h1 := hsub (k, v) (List.mem_cons_self _ _)
    simp only [compareKeys]
    split
    · rename_i heq
      rw [h1] at heq
      cases heq
    · rename_i rv heq
      rw [h1] at heq
      injection heq with h3
      subst h3
      rw [hih (k, v) (List.mem_cons_self _ _) (keyPath path k)]
      simp only [List.nil_append]
      exact ih (fun q hq => hsub q (List.mem_cons_of_mem _ hq))
        (fun q hq => hih q (List.mem_cons_of_mem _ hq)) path

theorem compareVal_self {v : JsonValue} (hwf : WFVal v) :
    ∀ path, compareVal v v path = [] := by
  induction hwf with
  | null => intro path; simp [compareVal, jsStrictEq]
  | bool b => intro path; simp [compareVal, jsStrictEq]
  | num lex => intro path; simp [compareVal, jsStrictEq]
  | inf s => intro path; simp [compareVal, jsStrictEq]
  | str str => intro path; simp [compareVal, jsStrictEq]
  | arr l hmem ih =>
    intro path
    simp only [compareVal, jsStrictEq, jsTypeof]
    simp only [ne_eq, not_true_eq_false, if_false, ite_false, if_neg]
    simp [compareArr_self l ih path 0]
  | obj kvs hnd hmem ih =>
    intro path
    have hfilter : kvs.filter (fun p => (jsLookup kvs p.1).isNone) = [] := by
      refine filter_eq_nil_of_forall _ _ (fun p hp => ?_)
      obtain ⟨k, v⟩ := p
      rw [jsLookup_self hnd hp]
      rfl
    simp [compareVal, jsStrictEq, jsTypeof, jsIsNonNullObject, jsEntries, hfilter,
      compareKeys_self kvs kvs (fun p hp => jsLookup_self hnd hp) ih path]

/-- C8: for every input on which validation succeeds, comparing the text
with itself yields no diff entries at all. -/
theorem claim8_compare_self_empty (t : String) (h : (validateJson t).valid = true) :
    compareJson t t = [] := by
  by_cases hb : (jsTrim t.data).isEmpty = true
  · have hres : validateJson t = ⟨true, none, some .null⟩ := by
      simp [validateJson, validateJsonWith, String.toList, hb]
    simp [compareJson, hres]
    exact compareVal_self WFVal.null ("")
  · cases hp : jsonParse t with
    | error msg =>
      have : validateJson t = ⟨false, some ⟨cleanMessage msg, (detectJsonError t msg).line,
          (detectJsonError t msg).column, (detectJsonError t msg).suggestion⟩, none⟩ := by
        simp [validateJson, validateJsonWith, String.toList, hb, hp]
      rw [this] at h
      simp at h
    | ok v =>
      have hres : validateJson t = ⟨true, none, some v⟩ := by
        simp [validateJson, validateJsonWith, String.toList, hb, hp]
      simp [compareJson, hres]
      exact compareVal_self (jsonParse_wfval t v hp) ("")

/-- Witness for C8 at a nested concrete document. -/
theorem claim8_compare_self_empty_witness :
    (validateJson ("\x7b\"a\":[1,\x7b\"b\":2\x7d],\"c\":true\x7d")).valid = true ∧
    compareJson ("\x7b\"a\":[1,\x7b\"b\":2\x7d],\"c\":true\x7d") ("\x7b\"a\":[1,\x7b\"b\":2\x7d],\"c\":true\x7d") = [] :=
  ⟨rfl, claim8_compare_self_empty ("\x7b\"a\":[1,\x7b\"b\":2\x7d],\"c\":true\x7d") rfl⟩

/-! ## Round-trip of `JSON.stringify` through the modelled `JSON.parse`

The lemmas below establish that re-parsing the compact serialisation of
a well-formed decoded value recovers the value exactly — the heart of
the minify-preserves-validity property. -/

theorem isDigit_cases {c : Char} (h : isDigit c = true) :
    c = '0' ∨ c = '1' ∨ c = '2' ∨ c = '3' ∨ c = '4' ∨
    c = '5' ∨ c = '6' ∨ c = '7' ∨ c = '8' ∨ c = '9' := by
  have h2 := h
  simp [isDigit] at h2
  tauto

/-- The character facts a digit enjoys, by enumeration. -/
theorem digit_class_facts {c : Char} (h : isDigit c = true) :
    isJsTrimWs c = false ∧ isJsonWs c = false ∧ c ≠ ']' ∧
    c ≠ 'n' ∧ c ≠ 't' ∧ c ≠ 'f' ∧ c ≠ '"' ∧ c ≠ '[' ∧ c ≠ '{' := by
  rcases isDigit_cases h with h | h | h | h | h | h | h | h | h | h <;> subst h <;>
    exact ⟨by decide, by decide, by decide, by decide, by decide, by decide, by decide,
      by decide, by decide⟩

theorem isNumLit_head {l : List Char} (h : isNumLit l = true) :
    ∃ c cs, l = c :: cs ∧ (isDigit c = true ∨ c = '-') := by
  match l with
  | [] => simp [isNumLit] at h
  | c :: cs =>
    refine ⟨c, cs, rfl, ?_⟩
    by_cases hm : c = '-'
    · exact Or.inr hm
    · left
      simp only [isNumLit, if_neg hm] at h
      by_cases h0 : c = '0'
      · subst h0; decide
      · rw [if_neg h0] at h
        simp only [Bool.and_eq_true] at h
        exact h.1

/-- The first character of a serialised value: never whitespace (in
either the JSON or the ECMAScript-trim sense) and never a closer. -/
theorem stringifyVal_head {v : JsonValue} (h : WFJson v) :
    ∃ c cs, stringifyVal v = c :: cs ∧ isJsTrimWs c = false ∧ isJsonWs c = false ∧ c ≠ ']' := by
  cases h with
  | null =>
    refine ⟨'n', ['u', 'l', 'l'], ?_, by decide, by decide, by decide⟩
    simp [stringifyVal]
  | bool b =>
    cases b
    · refine ⟨'f', ['a', 'l', 's', 'e'], ?_, by decide, by decide, by decide⟩
      simp [stringifyVal]
    · refine ⟨'t', ['r', 'u', 'e'], ?_, by decide, by decide, by decide⟩
      simp [stringifyVal]
  | num lex hne hall hlit =>
    obtain ⟨c, cs, hl, hc⟩ := isNumLit_head hlit
    refine ⟨c, cs, ?_, ?_, ?_, ?_⟩
    · simp [stringifyVal, String.toList, hl]
    · rcases hc with hd | hm
      · exact (digit_class_facts hd).1
      · subst hm; decide
    · rcases hc with hd | hm
      · exact (digit_class_facts hd).2.1
      · subst hm; decide
    · rcases hc with hd | hm
      · exact (digit_class_facts hd).2.2.1
      · subst hm; decide
  | str str =>
    refine ⟨'"', (str.data.map escapeChar).flatten ++ ['"'], ?_, by decide, by decide, by decide⟩
    simp [stringifyVal, quoteString, String.toList]
  | arr l hl =>
    refine ⟨'[', stringifyElems l ++ [']'], ?_, by decide, by decide, by decide⟩
    simp [stringifyVal]
  | obj kvs h1 h2 =>
    refine ⟨'{', stringifyMembers kvs ++ ['}'], ?_, by decide, by decide, by decide⟩
    simp [stringifyVal]

theorem skipWs_cons_of_not_ws {c : Char} (h : isJsonWs c = false) (cs : List Char) :
    skipWs (c :: cs) = c :: cs := by
  simp [skipWs, List.dropWhile_cons, h]

theorem jsTrim_cons_ne_nil {c : Char} (h : isJsTrimWs c = false) (cs : List Char) :
    jsTrim (c :: cs) ≠ [] := by
  intro hz
  unfold jsTrim at hz
  have h1 : List.dropWhile isJsTrimWs (c :: cs) = c :: cs := by
    simp [List.dropWhile_cons, h]
  rw [h1] at hz
  have h2 := congrArg List.reverse hz
  simp only [List.reverse_reverse, List.reverse_nil] at h2
  have h3 := List.dropWhile_eq_nil_iff.mp h2
  have h4 : c ∈ (c :: cs).reverse := by simp
  have := h3 c h4
  rw [h] at this
  cases this

theorem takeWhile_append_of_all {p : Char → Bool} {l r : List Char}
    (h : l.all p = true) (hr : ∀ c ∈ r.head?, p c = false) :
    (l ++ r).takeWhile p = l := by
  induction l with
  | nil =>
    cases r with
    | nil => rfl
    | cons c rs =>
      simp only [List.nil_append, List.takeWhile_cons]
      rw [hr c rfl]
      simp
  | cons a l2 ih =>
    simp only [List.all_cons, Bool.and_eq_true] at h
    simp only [List.cons_append, List.takeWhile_cons, h.1]
    rw [ih h.2]
    simp

theorem dropWhile_append_of_all {p : Char → Bool} {l r : List Char}
    (h : l.all p = true) (hr : ∀ c ∈ r.head?, p c = false) :
    (l ++ r).dropWhile p = r := by
  induction l with
  | nil =>
    cases r with
    | nil => rfl
    | cons c rs =>
      simp only [List.nil_append, List.dropWhile_cons]
      rw [hr c rfl]
      simp
  | cons a l2 ih =>
    simp only [List.all_cons, Bool.and_eq_true] at h
    simp only [List.cons_append, List.dropWhile_cons, h.1]
    rw [ih h.2]
    simp

theorem string_eta (s : String) : (⟨s.data⟩ : String) = s := by
  cases s
  rfl

theorem hexVal_hexDigitChar {n : Nat} (h : n < 16) : hexVal (hexDigitChar n) = some n := by
  interval_cases n <;> decide

theorem parseStrBody_cons_quote (acc tail : List Char) :
    parseStrBody acc ('"' :: tail) = .ok (⟨acc.reverse⟩, tail) := by
  rw [parseStrBody.eq_def]
  simp

theorem parseStrBody_cons_esc (e dec : Char) (hne : e ≠ 'u') (hesc : escChar e = some dec)
    (acc rest : List Char) :
    parseStrBody acc ('\\' :: e :: rest) = parseStrBody (dec :: acc) rest := by
  rw [parseStrBody.eq_def]
  simp [hne, hesc]

theorem parseStrBody_cons_plain {c : Char} (h1 : c ≠ '"') (h2 : c ≠ '\\')
    (h8 : ¬(c.toNat < 0x20)) (acc rest : List Char) :
    parseStrBody acc (c :: rest) = parseStrBody (c :: acc) rest := by
  rw [parseStrBody.eq_def]
  simp [h1, h2, h8]

theorem parseStrBody_cons_hex {c : Char} (h8 : c.toNat < 0x20) (acc rest : List Char) :
    parseStrBody acc ('\\' :: 'u' :: '0' :: '0' :: hexDigitChar (c.toNat / 16) ::
      hexDigitChar (c.toNat % 16) :: rest) = parseStrBody (c :: acc) rest := by
  have hd1 : hexVal (hexDigitChar (c.toNat / 16)) = some (c.toNat / 16) :=
    hexVal_hexDigitChar (by omega)
  have hd2 : hexVal (hexDigitChar (c.toNat % 16)) = some (c.toNat % 16) :=
    hexVal_hexDigitChar (by omega)
  have hn : ((0 * 16 + 0) * 16 + c.toNat / 16) * 16 + c.toNat % 16 = c.toNat := by
    omega
  have hlt : c.toNat < 0xd800 := by omega
  rw [parseStrBody.eq_def]
  simp only [hd1, hd2]
  have key : c.toNat / 16 * 16 + c.toNat % 16 = c.toNat := by omega
  simp [hexVal, key, hlt, Char.ofNat_toNat]

theorem parseStrBody_roundtrip (l : List Char) :
    ∀ acc tail, parseStrBody acc ((l.map escapeChar).flatten ++ '"' :: tail) =
      .ok (⟨acc.reverse ++ l⟩, tail) := by
  induction l with
  | nil =>
    intro acc tail
    simp only [List.map_nil, List.flatten_nil, List.nil_append, List.append_nil]
    exact parseStrBody_cons_quote acc tail
  | cons c l ih =>
    intro acc tail
    have hrw : (((c :: l).map escapeChar).flatten ++ '"' :: tail) =
        escapeChar c ++ ((l.map escapeChar).flatten ++ '"' :: tail) := by
      simp
    rw [hrw]
    by_cases h1 : c = '"'
    · subst h1
      rw [show escapeChar '"' = ['\\', '"'] from by decide, List.cons_append,
        List.cons_append, List.nil_append,
        parseStrBody_cons_esc '"' '"' (by decide) (by decide), ih ('"' :: acc) tail]
      simp
    · by_cases h2 : c = '\\'
      · subst h2
        rw [show escapeChar '\\' = ['\\', '\\'] from by decide, List.cons_append,
          List.cons_append, List.nil_append,
          parseStrBody_cons_esc '\\' '\\' (by decide) (by decide), ih ('\\' :: acc) tail]
        simp
      · by_cases h3 : c = '\x08'
        · subst h3
          rw [show escapeChar '\x08' = ['\\', 'b'] from by decide, List.cons_append,
            List.cons_append, List.nil_append,
            parseStrBody_cons_esc 'b' '\x08' (by decide) (by decide), ih ('\x08' :: acc) tail]
          simp
        · by_cases h4 : c = '\x0c'
          · subst h4
            rw [show escapeChar '\x0c' = ['\\', 'f'] from by decide, List.cons_append,
              List.cons_append, List.nil_append,
              parseStrBody_cons_esc 'f' '\x0c' (by decide) (by decide), ih ('\x0c' :: acc) tail]
            simp
          · by_cases h5 : c = '\n'
            · subst h5
              rw [show escapeChar '\n' = ['\\', 'n'] from by decide, List.cons_append,
                List.cons_append, List.nil_append,
                parseStrBody_cons_esc 'n' '\n' (by decide) (by decide), ih ('\n' :: acc) tail]
              simp
            · by_cases h6 : c = '\r'
              · subst h6
                rw [show escapeChar '\r' = ['\\', 'r'] from by decide, List.cons_append,
                  List.cons_append, List.nil_append,
                  parseStrBody_cons_esc 'r' '\r' (by decide) (by decide), ih ('\r' :: acc) tail]
                simp
              · by_cases h7 : c = '\t'
                · subst h7
                  rw [show escapeChar '\t' = ['\\', 't'] from by decide, List.cons_append,
                    List.cons_append, List.nil_append,
                    parseStrBody_cons_esc 't' '\t' (by decide) (by decide), ih ('\t' :: acc) tail]
                  simp
                · by_cases h8 : c.toNat < 0x20
                  · have hesc : escapeChar c =
                        ['\\', 'u', '0', '0', hexDigitChar (c.toNat / 16),
                          hexDigitChar (c.toNat % 16)] := by
                      simp [escapeChar, h1, h2, h3, h4, h5, h6, h7, h8]
                    rw [hesc]
                    simp only [List.cons_append, List.nil_append]
                    rw [parseStrBody_cons_hex h8, ih (c :: acc) tail]
                    simp
                  · have hesc : escapeChar c = [c] := by
                      simp [escapeChar, h1, h2, h3, h4, h5, h6, h7, h8]
                    rw [hesc, List.singleton_append,
                      parseStrBody_cons_plain h1 h2 h8, ih (c :: acc) tail]
                    simp

theorem insertKV_append_of_not_mem (acc : List (String × JsonValue)) (k : String)
    (v : JsonValue) (h : k ∉ acc.map Prod.fst) : insertKV acc k v = acc ++ [(k, v)] := by
  induction acc with
  | nil => rfl
  | cons p rest ih =>
    obtain ⟨k0, v0⟩ := p
    simp only [List.map_cons, List.mem_cons] at h
    push_neg at h
    have hk : ¬(k0 = k) := fun he => h.1 he.symm
    simp only [insertKV, if_neg hk, List.cons_append]
    rw [ih h.2]

theorem numStart_facts {c : Char} (h : isDigit c = true ∨ c = '-') :
    c ≠ 'n' ∧ c ≠ 't' ∧ c ≠ 'f' ∧ c ≠ '"' ∧ c ≠ '[' ∧ c ≠ '{' ∧
    (isDigit c || c = '-') = true := by
  rcases h with hd | hm
  · obtain ⟨-, -, -, f4, f5, f6, f7, f8, f9⟩ := digit_class_facts hd
    exact ⟨f4, f5, f6, f7, f8, f9, by simp [hd]⟩
  · subst hm
    exact ⟨by decide, by decide, by decide, by decide, by decide, by decide, by decide⟩

/-- The serialisation of a non-empty element list starts with the first
element's first character. -/
theorem stringifyElems_head {e : JsonValue} (es : List JsonValue) {c : Char} {cs : List Char}
    (hhead : stringifyVal e = c :: cs) :
    ∃ cs2, stringifyElems (e :: es) = c :: cs2 := by
  cases es with
  | nil => exact ⟨cs, by simp [stringifyElems, hhead]⟩
  | cons e2 es2 =>
    refine ⟨cs ++ ',' :: stringifyElems (e2 :: es2), ?_⟩
    simp [stringifyElems, hhead]

/-- The serialisation of a non-empty member list starts with a quote. -/
theorem stringifyMembers_head (k : String) (v : JsonValue)
    (kvs : List (String × JsonValue)) :
    ∃ cs2, stringifyMembers ((k, v) :: kvs) = '"' :: cs2 := by
  cases kvs with
  | nil =>
    refine ⟨(k.data.map escapeChar).flatten ++ '"' :: ':' :: stringifyVal v, ?_⟩
    simp [stringifyMembers, quoteString, String.toList]
  | cons p kvs2 =>
    refine ⟨(k.data.map escapeChar).flatten ++ '"' :: ':' :: (stringifyVal v ++
      ',' :: stringifyMembers (p :: kvs2)), ?_⟩
    simp [stringifyMembers, quoteString, String.toList]

theorem jsize_le_stringify_length {v : JsonValue} (hwf : WFJson v) :
    jsize v ≤ (stringifyVal v).length := by
  induction hwf with
  | null => simp [jsize, stringifyVal]
  | bool b => cases b <;> simp [jsize, stringifyVal]
  | num lex hne hall hlit =>
    have h0 : 0 < lex.data.length := List.length_pos_of_ne_nil hne
    show 1 ≤ (stringifyVal (.num lex)).length
    have h1 : stringifyVal (.num lex) = lex.data := by
      simp [stringifyVal, String.toList]
    rw [h1]
    omega
  | str str => simp [jsize, stringifyVal, quoteString]
  | arr l hmem ih =>
    have hlist : ∀ l2 : List JsonValue,
        (∀ e ∈ l2, jsize e ≤ (stringifyVal e).length) →
        jsizeArr l2 ≤ (stringifyElems l2).length + 1 := by
      intro l2
      induction l2 with
      | nil => intro _; simp [jsizeArr, stringifyElems]
      | cons e es ihl =>
        intro h2
        cases es with
        | nil =>
          have := h2 e (List.mem_cons_self _ _)
          simp [jsizeArr, stringifyElems]
          omega
        | cons e2 es2 =>
          have ha := h2 e (List.mem_cons_self _ _)
          have hb := ihl (fun q hq => h2 q (List.mem_cons_of_mem _ hq))
          simp only [jsizeArr, stringifyElems, List.length_append, List.length_cons] at *
          omega
    have := hlist l ih
    simp only [jsize, stringifyVal, List.length_append, List.length_cons]
    omega
  | obj kvs hnd hmem ih =>
    have hlist : ∀ l2 : List (String × JsonValue),
        (∀ p ∈ l2, jsize p.2 ≤ (stringifyVal p.2).length) →
        jsizeObj l2 ≤ (stringifyMembers l2).length + 1 := by
      intro l2
      induction l2 with
      | nil => intro _; simp [jsizeObj, stringifyMembers]
      | cons p ps ihl =>
        intro h2
        obtain ⟨k, v0⟩ := p
        cases ps with
        | nil =>
          have := h2 (k, v0) (List.mem_cons_self _ _)
          simp only [jsizeObj, stringifyMembers, List.length_append, List.length_cons] at *
          omega
        | cons p2 ps2 =>
          have ha := h2 (k, v0) (List.mem_cons_self _ _)
          have hb := ihl (fun q hq => h2 q (List.mem_cons_of_mem _ hq))
          simp only [jsizeObj, stringifyMembers, List.length_append, List.length_cons] at *
          omega
    have := hlist kvs (fun p hp => ih p hp)
    simp only [jsize, stringifyVal, List.length_append, List.length_cons]
    omega

theorem parseGo_val_lbracket (fuel : Nat) (r : List Char) :
    parseGo (fuel + 1) (.val ('[' :: r)) = parseGo fuel (.elems [] true (skipWs r)) := by
  rw [parseGo.eq_def]
  simp

theorem parseGo_val_lbrace (fuel : Nat) (r : List Char) :
    parseGo (fuel + 1) (.val ('{' :: r)) = parseGo fuel (.members [] true (skipWs r)) := by
  rw [parseGo.eq_def]
  simp

theorem parseGo_elems_step (fuel : Nat) (acc : List JsonValue) (b : Bool) (c : Char)
    (r : List Char) (hc : c ≠ ']') :
    parseGo (fuel + 1) (.elems acc b (c :: r)) =
      (match parseGo fuel (.val (c :: r)) with
       | .error e => .error e
       | .ok (v, rest) =>
         match skipWs rest with
         | [] => .error .unexpectedEnd
         | c1 :: r1 =>
           if c1 = ']' then .ok (.arr (v :: acc).reverse, r1)
           else if c1 = ',' then parseGo fuel (.elems (v :: acc) false (skipWs r1))
           else .error (.unexpectedToken c1 (r1.length + 1))) := by
  rw [parseGo.eq_def]
  simp [hc]

theorem parseGo_members_step (fuel : Nat) (acc : List (String × JsonValue)) (b : Bool)
    (r : List Char) :
    parseGo (fuel + 1) (.members acc b ('"' :: r)) =
      (match parseStrBody [] r with
       | .error e => .error e
       | .ok (k, rest) =>
         match skipWs rest with
         | [] => .error .unexpectedEnd
         | c1 :: r2 =>
           if c1 = ':' then
             match parseGo fuel (.val (skipWs r2)) with
             | .error e => .error e
             | .ok (v, rest2) =>
               match skipWs rest2 with
               | [] => .error .unexpectedEnd
               | c2 :: r3 =>
                 if c2 = '}' then .ok (.obj (insertKV acc k v), r3)
                 else if c2 = ',' then
                   parseGo fuel (.members (insertKV acc k v) false (skipWs r3))
                 else .error (.unexpectedToken c2 (r3.length + 1))
           else .error (.unexpectedToken c1 (r2.length + 1))) := by
  rw [parseGo.eq_def]
  simp

theorem quoteString_cons_append (str : String) (x : List Char) :
    quoteString str ++ x = '"' :: ((str.data.map escapeChar).flatten ++ '"' :: x) := by
  simp [quoteString, String.toList]

theorem numBoundary_cons (c : Char) (r : List Char) (h : isNumChar c = false) :
    NumBoundary (c :: r) := h

theorem parseGo_roundtrip : ∀ fuel : Nat,
    (∀ v rest, WFJson v → jsize v < fuel → NumBoundary rest →
      parseGo fuel (.val (stringifyVal v ++ rest)) = .ok (v, rest)) ∧
    (∀ l acc b rest, l ≠ [] → (∀ e ∈ l, WFJson e) → jsizeArr l < fuel →
      parseGo fuel (.elems acc b (stringifyElems l ++ ']' :: rest)) =
        .ok (.arr (acc.reverse ++ l), rest)) ∧
    (∀ kvs acc b rest, kvs ≠ [] → (∀ p ∈ kvs, WFJson p.2) →
      ((acc ++ kvs).map Prod.fst).Nodup → jsizeObj kvs < fuel →
      parseGo fuel (.members acc b (stringifyMembers kvs ++ '}' :: rest)) =
        .ok (.obj (acc ++ kvs), rest)) := by
  intro fuel
  induction fuel with
  | zero =>
    refine ⟨fun v rest _ hsz _ => absurd hsz (by omega),
      fun l acc b rest _ _ hsz => absurd hsz (by omega),
      fun kvs acc b rest _ _ _ hsz => absurd hsz (by omega)⟩
  | succ fuel ih =>
    obtain ⟨ihv, ihe, ihm⟩ := ih
    refine ⟨?_, ?_, ?_⟩
    · -- values
      intro v rest hwf hsz hnb
      cases hwf with
      | null =>
        rw [show stringifyVal .null = ['n', 'u', 'l', 'l'] from by simp [stringifyVal]]
        simp [parseGo, lit3]
      | bool b =>
        cases b
        · rw [show stringifyVal (.bool false) = ['f', 'a', 'l', 's', 'e'] from by
            simp [stringifyVal]]
          simp [parseGo, lit4]
        · rw [show stringifyVal (.bool true) = ['t', 'r', 'u', 'e'] from by
            simp [stringifyVal]]
          simp [parseGo, lit3]
      | str str =>
        rw [show stringifyVal (.str str) ++ rest =
            '"' :: ((str.data.map escapeChar).flatten ++ '"' :: rest) from by
          simp [stringifyVal, quoteString, String.toList]]
        simp [parseGo, parseStrBody_roundtrip, string_eta]
      | num lex hne hall hlit =>
        obtain ⟨c0, cs0, hl, hc⟩ := isNumLit_head hlit
        obtain ⟨f1, f2, f3, f4, f5, f6, f7⟩ := numStart_facts hc
        have hr : ∀ ch ∈ rest.head?, isNumChar ch = false := by
          intro ch hch
          cases rest with
          | nil => cases hch
          | cons r0 rr =>
            have he : r0 = ch := by simpa using hch
            subst he
            exact hnb
        rw [show stringifyVal (.num lex) ++ rest = c0 :: (cs0 ++ rest) from by
          simp [stringifyVal, String.toList, hl]]
        simp only [parseGo]
        rw [if_neg f1, if_neg f2, if_neg f3, if_neg f4, if_neg f5, if_neg f6, if_pos f7]
        rw [show c0 :: (cs0 ++ rest) = lex.data ++ rest from by rw [hl, List.cons_append]]
        rw [takeWhile_append_of_all hall hr, if_pos hlit,
          dropWhile_append_of_all hall hr, string_eta]
      | arr l hmem =>
        cases l with
        | nil =>
          rw [show stringifyVal (.arr []) ++ rest = '[' :: ']' :: rest from by
            simp [stringifyVal, stringifyElems]]
          obtain ⟨f2, rfl⟩ : ∃ f2, fuel = f2 + 1 := by
            have h1 : jsize (.arr []) = 1 := by simp [jsize, jsizeArr]
            exact ⟨fuel - 1, by omega⟩
          rw [parseGo_val_lbracket, skipWs_cons_of_not_ws (by decide), parseGo.eq_def]
          simp
        | cons e es =>
          rw [show stringifyVal (.arr (e :: es)) ++ rest =
              '[' :: (stringifyElems (e :: es) ++ ']' :: rest) from by
            simp [stringifyVal]]
          obtain ⟨c0, cs0, hhead, htws, hws, hnc⟩ :=
            stringifyVal_head (hmem e (List.mem_cons_self _ _))
          obtain ⟨cs1, hSE⟩ := stringifyElems_head es hhead
          rw [parseGo_val_lbracket,
            show skipWs (stringifyElems (e :: es) ++ ']' :: rest) =
              stringifyElems (e :: es) ++ ']' :: rest from by
              rw [hSE, List.cons_append]
              exact skipWs_cons_of_not_ws hws _]
          have hsz2 : jsizeArr (e :: es) < fuel := by
            have h1 : jsize (.arr (e :: es)) = 1 + jsizeArr (e :: es) := by simp [jsize]
            omega
          have hres := ihe (e :: es) [] true rest (by simp) hmem hsz2
          rw [hres]
          simp
      | obj kvs hnd hwfm =>
        cases kvs with
        | nil =>
          rw [show stringifyVal (.obj []) ++ rest = '{' :: '}' :: rest from by
            simp [stringifyVal, stringifyMembers]]
          obtain ⟨f2, rfl⟩ : ∃ f2, fuel = f2 + 1 := by
            have h1 : jsize (.obj []) = 1 := by simp [jsize, jsizeObj]
            exact ⟨fuel - 1, by omega⟩
          rw [parseGo_val_lbrace, skipWs_cons_of_not_ws (by decide), parseGo.eq_def]
          simp
        | cons p kvs2 =>
          obtain ⟨k, v0⟩ := p
          rw [show stringifyVal (.obj ((k, v0) :: kvs2)) ++ rest =
              '{' :: (stringifyMembers ((k, v0) :: kvs2) ++ '}' :: rest) from by
            simp [stringifyVal]]
          obtain ⟨cs1, hSM⟩ := stringifyMembers_head k v0 kvs2
          rw [parseGo_val_lbrace,
            show skipWs (stringifyMembers ((k, v0) :: kvs2) ++ '}' :: rest) =
              stringifyMembers ((k, v0) :: kvs2) ++ '}' :: rest from by
              rw [hSM, List.cons_append]
              exact skipWs_cons_of_not_ws (by decide) _]
          have hsz2 : jsizeObj ((k, v0) :: kvs2) < fuel := by
            have h1 : jsize (.obj ((k, v0) :: kvs2)) = 1 + jsizeObj ((k, v0) :: kvs2) := by
              simp [jsize]
            omega
          have hres := ihm ((k, v0) :: kvs2) [] true rest (by simp) hwfm (by simpa using hnd)
            hsz2
          rw [hres]
          simp
    · -- array elements
      intro l acc b rest hlne hwf hsz
      match l with
      | [] => exact absurd rfl hlne
      | e :: es =>
        obtain ⟨c0, cs0, hhead, htws, hws, hnc⟩ :=
          stringifyVal_head (hwf e (List.mem_cons_self _ _))
        have hsze : jsize e < fuel := by
          have h1 : jsizeArr (e :: es) = 1 + jsize e + jsizeArr es := by simp [jsizeArr]
          omega
        cases es with
        | nil =>
          rw [show stringifyElems [e] ++ ']' :: rest = c0 :: (cs0 ++ ']' :: rest) from by
            simp [stringifyElems, hhead]]
          rw [parseGo_elems_step fuel acc b c0 _ hnc]
          have hv := ihv e (']' :: rest) (hwf e (List.mem_cons_self _ _)) hsze
            (numBoundary_cons _ _ (by decide))
          rw [hhead, List.cons_append] at hv
          have hsb : skipWs (']' :: rest) = ']' :: rest :=
            skipWs_cons_of_not_ws (by decide) _
          simp [hv, hsb]
        | cons e2 es2 =>
          rw [show stringifyElems (e :: e2 :: es2) ++ ']' :: rest =
              c0 :: (cs0 ++ ',' :: (stringifyElems (e2 :: es2) ++ ']' :: rest)) from by
            simp [stringifyElems, hhead]]
          rw [parseGo_elems_step fuel acc b c0 _ hnc]
          have hv := ihv e (',' :: (stringifyElems (e2 :: es2) ++ ']' :: rest))
            (hwf e (List.mem_cons_self _ _)) hsze (numBoundary_cons _ _ (by decide))
          rw [hhead, List.cons_append] at hv
          have hsb : skipWs (',' :: (stringifyElems (e2 :: es2) ++ ']' :: rest)) =
              ',' :: (stringifyElems (e2 :: es2) ++ ']' :: rest) :=
            skipWs_cons_of_not_ws (by decide) _
          obtain ⟨c2, cs2, hhead2, htws2, hws2, hnc2⟩ :=
            stringifyVal_head (hwf e2 (List.mem_cons_of_mem _ (List.mem_cons_self _ _)))
          obtain ⟨cs3, hSE2⟩ := stringifyElems_head es2 hhead2
          have hsb2 : skipWs (stringifyElems (e2 :: es2) ++ ']' :: rest) =
              stringifyElems (e2 :: es2) ++ ']' :: rest := by
            rw [hSE2, List.cons_append]
            exact skipWs_cons_of_not_ws hws2 _
          have hsz3 : jsizeArr (e2 :: es2) < fuel := by
            have h1 : jsizeArr (e :: e2 :: es2) = 1 + jsize e + jsizeArr (e2 :: es2) := by
              simp [jsizeArr]
            omega
          have hres := ihe (e2 :: es2) (e :: acc) false rest (by simp)
            (fun q hq => hwf q (List.mem_cons_of_mem _ hq)) hsz3
          simp [hv, hsb, hsb2, hres]
    · -- object members
      intro kvs acc b rest hkne hwfm hnd hsz
      match kvs with
      | [] => exact absurd rfl hkne
      | (k, v0) :: kvs2 =>
        have hndk : k ∉ acc.map Prod.fst := by
          have hmap : (acc.map Prod.fst ++ (k :: kvs2.map Prod.fst)).Nodup := by
            simpa using hnd
          rcases List.nodup_append.mp hmap with ⟨-, -, hdisj⟩
          intro hk
          exact hdisj hk (List.mem_cons_self _ _)
        have hins : insertKV acc k v0 = acc ++ [(k, v0)] :=
          insertKV_append_of_not_mem acc k v0 hndk
        have hszv : jsize v0 < fuel := by
          have h1 : jsizeObj ((k, v0) :: kvs2) = 1 + jsize v0 + jsizeObj kvs2 := by
            simp [jsizeObj]
          omega
        obtain ⟨c0, cs0, hhead, htws, hws, hnc⟩ :=
          stringifyVal_head (hwfm (k, v0) (List.mem_cons_self _ _))
        cases kvs2 with
        | nil =>
          rw [show stringifyMembers [(k, v0)] ++ '}' :: rest =
              '"' :: ((k.data.map escapeChar).flatten ++ '"' ::
                (':' :: (stringifyVal v0 ++ '}' :: rest))) from by
            simp [stringifyMembers, quoteString, String.toList]]
          rw [parseGo_members_step]
          rw [parseStrBody_roundtrip k.data [] (':' :: (stringifyVal v0 ++ '}' :: rest))]
          have hsc : skipWs (':' :: (stringifyVal v0 ++ '}' :: rest)) =
              ':' :: (stringifyVal v0 ++ '}' :: rest) :=
            skipWs_cons_of_not_ws (by decide) _
          have hsv : skipWs (stringifyVal v0 ++ '}' :: rest) =
              stringifyVal v0 ++ '}' :: rest := by
            rw [hhead, List.cons_append]
            exact skipWs_cons_of_not_ws hws _
          have hv := ihv v0 ('}' :: rest) (hwfm (k, v0) (List.mem_cons_self _ _)) hszv
            (numBoundary_cons _ _ (by decide))
          have hsb : skipWs ('}' :: rest) = '}' :: rest :=
            skipWs_cons_of_not_ws (by decide) _
          simp [string_eta, hsc, hsv, hv, hsb, hins]
        | cons p2 kvs3 =>
          obtain ⟨p2k, p2v⟩ := p2
          rw [show stringifyMembers ((k, v0) :: (p2k, p2v) :: kvs3) ++ '}' :: rest =
              '"' :: ((k.data.map escapeChar).flatten ++ '"' ::
                (':' :: (stringifyVal v0 ++
                  ',' :: (stringifyMembers ((p2k, p2v) :: kvs3) ++ '}' :: rest)))) from by
            simp [stringifyMembers, quoteString, String.toList]]
          rw [parseGo_members_step]
          rw [parseStrBody_roundtrip k.data []
            (':' :: (stringifyVal v0 ++
              ',' :: (stringifyMembers ((p2k, p2v) :: kvs3) ++ '}' :: rest)))]
          have hsc : skipWs (':' :: (stringifyVal v0 ++
              ',' :: (stringifyMembers ((p2k, p2v) :: kvs3) ++ '}' :: rest))) =
              ':' :: (stringifyVal v0 ++
                ',' :: (stringifyMembers ((p2k, p2v) :: kvs3) ++ '}' :: rest)) :=
            skipWs_cons_of_not_ws (by decide) _
          have hsv : skipWs (stringifyVal v0 ++
              ',' :: (stringifyMembers ((p2k, p2v) :: kvs3) ++ '}' :: rest)) =
              stringifyVal v0 ++
                ',' :: (stringifyMembers ((p2k, p2v) :: kvs3) ++ '}' :: rest) := by
            rw [hhead, List.cons_append]
            exact skipWs_cons_of_not_ws hws _
          have hv := ihv v0 (',' :: (stringifyMembers ((p2k, p2v) :: kvs3) ++ '}' :: rest))
            (hwfm (k, v0) (List.mem_cons_self _ _)) hszv (numBoundary_cons _ _ (by decide))
          have hsb : skipWs (',' :: (stringifyMembers ((p2k, p2v) :: kvs3) ++ '}' :: rest)) =
              ',' :: (stringifyMembers ((p2k, p2v) :: kvs3) ++ '}' :: rest) :=
            skipWs_cons_of_not_ws (by decide) _
          obtain ⟨cs4, hSM2⟩ := stringifyMembers_head p2k p2v kvs3
          have hsm : skipWs (stringifyMembers ((p2k, p2v) :: kvs3) ++ '}' :: rest) =
              stringifyMembers ((p2k, p2v) :: kvs3) ++ '}' :: rest := by
            rw [hSM2, List.cons_append]
            exact skipWs_cons_of_not_ws (by decide) _
          have hsz3 : jsizeObj ((p2k, p2v) :: kvs3) < fuel := by
            have h1 : jsizeObj ((k, v0) :: (p2k, p2v) :: kvs3) =
                1 + jsize v0 + jsizeObj ((p2k, p2v) :: kvs3) := by
              simp [jsizeObj]
            omega
          have hnd2 : (((acc ++ [(k, v0)]) ++ (p2k, p2v) :: kvs3).map Prod.fst).Nodup := by
            have heq : (acc ++ [(k, v0)]) ++ (p2k, p2v) :: kvs3 =
                acc ++ (k, v0) :: (p2k, p2v) :: kvs3 := by
              simp
            rw [heq]
            exact hnd
          have hres := ihm ((p2k, p2v) :: kvs3) (acc ++ [(k, v0)]) false rest (by simp)
            (fun q hq => hwfm q (List.mem_cons_of_mem _ hq)) hnd2 hsz3
          simp [string_eta, hsc, hsv, hv, hsb, hsm, hins, hres]

theorem jsonParse_stringify {v : JsonValue} (hwf : WFJson v) :
    jsonParse (⟨stringifyVal v⟩ : String) = .ok (coerceNums v) := by
  have hlen := jsize_le_stringify_length hwf
  obtain ⟨c0, cs0, hhead, htws, hws, hnc⟩ := stringifyVal_head hwf
  have hcs : (⟨stringifyVal v⟩ : String).toList = stringifyVal v := rfl
  have hskip : skipWs (stringifyVal v) = stringifyVal v := by
    rw [hhead]
    exact skipWs_cons_of_not_ws hws _
  have hfuel : jsize v < 2 * (stringifyVal v).length + 4 := by omega
  have hrt := (parseGo_roundtrip (2 * (stringifyVal v).length + 4)).1 v [] hwf hfuel trivial
  rw [List.append_nil] at hrt
  have hskip2 : List.dropWhile isJsonWs (stringifyVal v) = stringifyVal v := hskip
  simp [jsonParse, jsonParseE, hcs, hskip2, hrt, skipWs]

theorem isNullParsed_eq_false {v : JsonValue} (h : v ≠ .null) :
    isNullParsed (some v) = false := by
  cases v
  · exact absurd rfl h
  all_goals simp [isNullParsed]

/-- C7 (amended): whenever `validateJson t` succeeds AND the decoded
value contains no number literal overflowing the IEEE-754 double range
(no `Infinity` leaf), validating `minifyJson t` succeeds as well and
decodes to the same value.  At an overflowing literal the clause fails:
`JSON.parse` decodes `Infinity`, which `JSON.stringify` serialises as
`null` (see the C7 counterexample at `"1e999"`). -/
theorem claim7_minify_roundtrip (t : String) (h : (validateJson t).valid = true)
    (hfin : finiteParsed (validateJson t).parsed = true) :
    (validateJson (minifyJson t)).valid = true ∧
    (validateJson (minifyJson t)).parsed = (validateJson t).parsed := by
  by_cases hb : (jsTrim t.data).isEmpty = true
  · have hres : validateJson t = ⟨true, none, some .null⟩ := by
      simp [validateJson, validateJsonWith, String.toList, hb]
    have hmin : minifyJson t = t := by
      simp [minifyJson, hres, isNullParsed]
    rw [hmin, hres]
    exact ⟨rfl, rfl⟩
  · cases hp : jsonParse t with
    | error msg =>
      exfalso
      have hres : validateJson t = ⟨false, some ⟨cleanMessage msg, (detectJsonError t msg).line,
          (detectJsonError t msg).column, (detectJsonError t msg).suggestion⟩, none⟩ := by
        simp [validateJson, validateJsonWith, String.toList, hb, hp]
      rw [hres] at h
      simp at h
    | ok v =>
      have hres : validateJson t = ⟨true, none, some v⟩ := by
        simp [validateJson, validateJsonWith, String.toList, hb, hp]
      obtain ⟨w, hwfw, hvw⟩ := jsonParse_ok t v hp
      have hni : hasInf v = false := by
        rw [hres] at hfin
        simpa [finiteParsed] using hfin
      have hwv : coerceNums w = w := by
        refine coerceNums_id_of_noInf (jsize w) w le_rfl ?_
        rw [← hvw]
        exact hni
      have hveq : v = w := by rw [hvw, hwv]
      subst hveq
      have hwf : WFJson v := hwfw
      have hcoe : coerceNums v = v := hwv
      by_cases hv0 : v = .null
      · subst hv0
        have hmin : minifyJson t = t := by
          simp [minifyJson, hres, isNullParsed]
        rw [hmin, hres]
        exact ⟨rfl, rfl⟩
      · have hmin : minifyJson t = ⟨stringifyVal v⟩ := by
          simp [minifyJson, hres, isNullParsed_eq_false hv0]
        have hmk := jsonParse_stringify hwf
        rw [hcoe] at hmk
        obtain ⟨c0, cs0, hhead, htws, hws, hnc⟩ := stringifyVal_head hwf
        have hguard : (jsTrim (⟨stringifyVal v⟩ : String).data).isEmpty = false := by
          have hne := jsTrim_cons_ne_nil htws cs0
          have hdata : (⟨stringifyVal v⟩ : String).data = c0 :: cs0 := by
            rw [show (⟨stringifyVal v⟩ : String).data = stringifyVal v from rfl, hhead]
          rw [hdata]
          cases hh : jsTrim (c0 :: cs0) with
          | nil => exact absurd hh hne
          | cons a l => rfl
        have hres2 : validateJson ⟨stringifyVal v⟩ = ⟨true, none, some v⟩ := by
          simp [validateJson, validateJsonWith, String.toList, hguard, hmk]
        rw [hmin, hres2, hres]
        exact ⟨rfl, rfl⟩

/-- Witness for C7 at a concrete document with extra whitespace, which
minify actually rewrites; no literal overflows. -/
theorem claim7_minify_roundtrip_witness :
    (validateJson (" \x7b \"b\" : [ 1 , true ] \x7d ")).valid = true ∧
    finiteParsed (validateJson (" \x7b \"b\" : [ 1 , true ] \x7d ")).parsed = true ∧
    (validateJson (minifyJson (" \x7b \"b\" : [ 1 , true ] \x7d "))).valid = true ∧
    (validateJson (minifyJson (" \x7b \"b\" : [ 1 , true ] \x7d "))).parsed =
      (validateJson (" \x7b \"b\" : [ 1 , true ] \x7d ")).parsed :=
  ⟨rfl, rfl, (claim7_minify_roundtrip (" \x7b \"b\" : [ 1 , true ] \x7d ") rfl rfl).1,
    (claim7_minify_roundtrip (" \x7b \"b\" : [ 1 , true ] \x7d ") rfl rfl).2⟩

/-- Counterexample to C7 as stated: `"1e999"` validates successfully
(the numeral overflows the double range, so `JSON.parse` decodes
`Infinity`), but `JSON.stringify` serialises `Infinity` as `null`:
`minifyJson` rewrites the text to `null`, whose re-validated parse is
the JSON `null` — not deep-equal to the original decoded value. -/
theorem claim7_counterexample :
    (validateJson ("1e999")).valid = true ∧
    (validateJson ("1e999")).parsed = some (.inf false) ∧
    minifyJson ("1e999") = "null" ∧
    (validateJson (minifyJson ("1e999"))).valid = true ∧
    (validateJson (minifyJson ("1e999"))).parsed = some .null ∧
    (validateJson (minifyJson ("1e999"))).parsed ≠ (validateJson ("1e999")).parsed := by
  have hres : validateJson ("1e999") = ⟨true, none, some (.inf false)⟩ := rfl
  have hstr : stringifyVal (.inf false) = String.toList ("null") := by
    simp [stringifyVal]
  have hmin : minifyJson ("1e999") = "null" := by
    simp only [minifyJson, hres, isNullParsed, Bool.not_true, Bool.false_or]
    rw [hstr]
    rfl
  have hnull : validateJson ("null") = ⟨true, none, some .null⟩ := rfl
  rw [hmin]
  refine ⟨rfl, rfl, rfl, rfl, rfl, ?_⟩
  rw [hnull, hres]
  intro hEq
  exact JsonValue.noConfusion (Option.some.inj hEq)

end Jsonmate
